import Mathlib

/-!
Verification of the odin bookmarking service's content-extraction,
ingestion-admission, deletion, and search components, shallowly embedded
from the Rust sources. Strings are modelled as `List Char` (Rust `char`
sequences, i.e. Unicode scalar values) and byte buffers as `List Nat`
(each entry < 256).
-/

/-- The Unicode `White_Space` code points, exactly the set accepted by
Rust's `char::is_whitespace` (used by `str::trim` and the extractor's
whitespace cleaning). -/
def rustIsWhitespace (c : Char) : Bool :=
  c.toNat == 0x09 || c.toNat == 0x0A || c.toNat == 0x0B || c.toNat == 0x0C ||
  c.toNat == 0x0D || c.toNat == 0x20 || c.toNat == 0x85 || c.toNat == 0xA0 ||
  c.toNat == 0x1680 || (0x2000 ≤ c.toNat && c.toNat ≤ 0x200A) ||
  c.toNat == 0x2028 || c.toNat == 0x2029 || c.toNat == 0x202F ||
  c.toNat == 0x205F || c.toNat == 0x3000

/-- `str::trim_start`: drop leading Unicode whitespace. -/
def trimStartChars (l : List Char) : List Char :=
  l.dropWhile rustIsWhitespace

/-- `str::trim`: drop leading and trailing Unicode whitespace. -/
def trimChars (l : List Char) : List Char :=
  ((l.dropWhile rustIsWhitespace).reverse.dropWhile rustIsWhitespace).reverse

/-- ASCII uppercase test on a scalar value. -/
def isAsciiUpper (c : Char) : Bool :=
  65 ≤ c.toNat && c.toNat ≤ 90

/-- ASCII alphabetic test (`u8::is_ascii_alphabetic`). -/
def isAsciiAlpha (c : Char) : Bool :=
  (65 ≤ c.toNat && c.toNat ≤ 90) || (97 ≤ c.toNat && c.toNat ≤ 122)

/-- ASCII digit test. -/
def isAsciiDigit (c : Char) : Bool :=
  48 ≤ c.toNat && c.toNat ≤ 57

/-- ASCII lowercasing of one scalar value, as Rust's
`char::to_ascii_lowercase` / `str::to_ascii_lowercase`. -/
def asciiLower (c : Char) : Char :=
  if 65 ≤ c.toNat && c.toNat ≤ 90 then Char.ofNat (c.toNat + 32) else c

/-- Rust `str::len` of a `char` sequence: total UTF-8 byte length. -/
def utf8Len (l : List Char) : Nat :=
  (l.map Char.utf8Size).sum

/-- `IngestService::clean_text` loop (`src/backend/src/services/ingest.rs`):
walk the characters tracking `prev_space`; a whitespace character emits a
single `' '` unless the previous emission was already the space for the
current run. -/
def collapseWs : List Char → Bool → List Char
  | [], _ => []
  | c :: cs, prev =>
    if rustIsWhitespace c then
      if prev then collapseWs cs true else ' ' :: collapseWs cs true
    else c :: collapseWs cs false

/-- `IngestService::clean_text`: collapse whitespace runs to single spaces,
then `str::trim` the result. -/
def clean_text (input : List Char) : List Char :=
  trimChars (collapseWs input false)

/-- `IngestService::make_excerpt` (live service variant,
`src/backend/src/services/ingest.rs:352`): `None` on empty text, otherwise
the first `max_len` characters with `'…'` chained on unconditionally. -/
def serviceMakeExcerpt (text : List Char) (max_len : Nat) : Option (List Char) :=
  if text = [] then none
  else some (text.take max_len ++ ['…'])

/-- `make_excerpt` (legacy route variant,
`src/backend/src/routes/ingest.rs:318`): `None` on empty text, otherwise the
first `max_len` characters, pushing `'…'` only when the original character
count exceeds `max_len`. -/
def routesMakeExcerpt (text : List Char) (max_len : Nat) : Option (List Char) :=
  if text = [] then none
  else some (text.take max_len ++ if text.length > max_len then ['…'] else [])

/-- `IngestService::truncate_error`
(`src/backend/src/services/ingest.rs:435`): keep messages of at most 900
characters verbatim, otherwise keep the first 900 characters and chain a
final `'…'`. -/
def truncate_error (message : List Char) : List Char :=
  if message.length ≤ 900 then message
  else message.take 900 ++ ['…']

/-- Rust `str::split_once(delim)`: split at the first occurrence of the
(non-empty) delimiter substring, returning the parts before and after it. -/
def splitOnce (delim : List Char) : List Char → Option (List Char × List Char)
  | [] => none
  | c :: rest =>
    if delim.isPrefixOf (c :: rest) then some ([], (c :: rest).drop delim.length)
    else (splitOnce delim rest).map (fun p => (c :: p.1, p.2))

/-- Inner loop of `IngestService::trim_site_suffix`: try each delimiter in
order; on the first whose left side trims to a byte length of at least 6,
return that left side. -/
def trimSiteSuffixLoop (trimmed : List Char) : List (List Char) → Option (List Char)
  | [] => none
  | d :: ds =>
    match splitOnce d trimmed with
    | some (left, _) =>
      let left' := trimChars left
      if 6 ≤ utf8Len left' then some left' else trimSiteSuffixLoop trimmed ds
    | none => trimSiteSuffixLoop trimmed ds

/-- The delimiter list of `IngestService::trim_site_suffix`:
`" — "`, `" | "`, `" - "`, `" · "` in source order. -/
def siteSuffixDelims : List (List Char) :=
  [[' ', '—', ' '], [' ', '|', ' '], [' ', '-', ' '], [' ', '·', ' ']]

/-- `IngestService::trim_site_suffix`
(`src/backend/src/services/ingest.rs:315`): trim the title; `None` when
empty; otherwise strip a site-name suffix at the first delimiter whose left
side has `str::len` (UTF-8 bytes) at least 6, else keep the trimmed title. -/
def trim_site_suffix (title : List Char) : Option (List Char) :=
  let trimmed := trimChars title
  if trimmed = [] then none
  else some ((trimSiteSuffixLoop trimmed siteSuffixDelims).getD trimmed)

/-!  ### Document model for the title extractor

`scraper::Html` parses the page into a DOM; the extractor only ever takes
the *first* element matched by a selector, reads either its `content`
attribute or its concatenated text chunks, trims, and rejects empty
results.  We model the parsed document as its elements in document order;
an element carries its tag name, its attributes, and its text chunks (the
`node.text()` iterator items). -/

structure DomElement where
  tag : List Char
  attrs : List (List Char × List Char)
  texts : List (List Char)
deriving DecidableEq

/-- A parsed HTML document: its elements in document order. -/
def DomDocument := List DomElement

/-- `ElementRef::attr`: first value bound to the attribute name. -/
def domAttr (e : DomElement) (name : List Char) : Option (List Char) :=
  (e.attrs.find? (fun p => p.1 = name)).map Prod.snd

/-- Does an element match a `meta[property="og:title"]`-style selector:
tag equality plus one required attribute value. -/
def matchesMetaSel (tagName attrName attrVal : List Char) (e : DomElement) : Bool :=
  e.tag = tagName && domAttr e attrName = some attrVal

/-- `IngestService::select_meta_content`: first element matching the meta
selector, then its `content` attribute, trimmed and rejected if empty. -/
def select_meta_content (doc : DomDocument) (tagName attrName attrVal : List Char) :
    Option (List Char) :=
  ((doc.find? (matchesMetaSel tagName attrName attrVal)).bind
      (fun e => domAttr e "content".toList)).map trimChars
    |>.filter (fun t => !t.isEmpty)

/-- `IngestService::select_text`: first element with the given tag, its text
chunks joined with `" "`, trimmed and rejected if empty. -/
def select_text (doc : DomDocument) (tagName : List Char) : Option (List Char) :=
  ((doc.find? (fun e => e.tag = tagName)).map
      (fun e => (e.texts.intersperse [' ']).foldr (· ++ ·) [])).map trimChars
    |>.filter (fun t => !t.isEmpty)

/-- `IngestService::extract_title` (live service variant,
`src/backend/src/services/ingest.rs:280`): first `Some` among the
`og:title` meta content, the first `<h1>` text, and the `<title>` text with
its site suffix trimmed.  (This variant has no `twitter:title` candidate.) -/
def serviceExtractTitle (doc : DomDocument) : Option (List Char) :=
  ([select_meta_content doc "meta".toList "property".toList "og:title".toList,
    select_text doc "h1".toList,
    (select_text doc "title".toList).bind trim_site_suffix].filterMap id).head?

/-- `extract_title` (legacy route variant,
`src/backend/src/routes/ingest.rs:249`): like the service variant but with
the `twitter:title` meta content as second candidate. -/
def routesExtractTitle (doc : DomDocument) : Option (List Char) :=
  ([select_meta_content doc "meta".toList "property".toList "og:title".toList,
    select_meta_content doc "meta".toList "name".toList "twitter:title".toList,
    select_text doc "h1".toList,
    (select_text doc "title".toList).bind trim_site_suffix].filterMap id).head?


/-! ### UTF-8 lossy decoding (`String::from_utf8_lossy`)

Byte buffers are `List Nat` with entries below 256.  The decoder follows
the standard library's policy: each maximal valid prefix of an intended
sequence that fails to complete is replaced by one U+FFFD. -/

/-- UTF-8 continuation byte test. -/
def isUtf8Cont (b : Nat) : Bool := 0x80 ≤ b && b ≤ 0xBF

/-- The replacement character U+FFFD. -/
def replChar : Char := Char.ofNat 0xFFFD

/-- Fuel-indexed UTF-8 lossy decoder; the wrapper supplies the buffer
length as fuel (each step consumes at least one byte). -/
def decodeUtf8LossyFuel : Nat → List Nat → List Char
  | 0, _ => []
  | _, [] => []
  | fuel + 1, b :: rest =>
    if b < 0x80 then Char.ofNat b :: decodeUtf8LossyFuel fuel rest
    else if b < 0xC2 then replChar :: decodeUtf8LossyFuel fuel rest
    else if b ≤ 0xDF then
      match rest with
      | b2 :: rest2 =>
        if isUtf8Cont b2 then
          Char.ofNat ((b - 0xC0) * 64 + (b2 - 0x80)) :: decodeUtf8LossyFuel fuel rest2
        else replChar :: decodeUtf8LossyFuel fuel rest
      | [] => [replChar]
    else if b ≤ 0xEF then
      match rest with
      | b2 :: rest2 =>
        if (if b = 0xE0 then 0xA0 ≤ b2 && b2 ≤ 0xBF
            else if b = 0xED then 0x80 ≤ b2 && b2 ≤ 0x9F
            else isUtf8Cont b2) then
          match rest2 with
          | b3 :: rest3 =>
            if isUtf8Cont b3 then
              Char.ofNat ((b - 0xE0) * 4096 + (b2 - 0x80) * 64 + (b3 - 0x80)) ::
                decodeUtf8LossyFuel fuel rest3
            else replChar :: decodeUtf8LossyFuel fuel rest2
          | [] => [replChar]
        else replChar :: decodeUtf8LossyFuel fuel rest
      | [] => [replChar]
    else if b ≤ 0xF4 then
      match rest with
      | b2 :: rest2 =>
        if (if b = 0xF0 then 0x90 ≤ b2 && b2 ≤ 0xBF
            else if b = 0xF4 then 0x80 ≤ b2 && b2 ≤ 0x8F
            else isUtf8Cont b2) then
          match rest2 with
          | b3 :: rest3 =>
            if isUtf8Cont b3 then
              match rest3 with
              | b4 :: rest4 =>
                if isUtf8Cont b4 then
                  Char.ofNat ((b - 0xF0) * 262144 + (b2 - 0x80) * 4096 +
                      (b3 - 0x80) * 64 + (b4 - 0x80)) ::
                    decodeUtf8LossyFuel fuel rest4
                else replChar :: decodeUtf8LossyFuel fuel rest3
              | [] => [replChar]
            else replChar :: decodeUtf8LossyFuel fuel rest2
          | [] => [replChar]
        else replChar :: decodeUtf8LossyFuel fuel rest
      | [] => [replChar]
    else replChar :: decodeUtf8LossyFuel fuel rest

/-- `String::from_utf8_lossy` on a byte buffer. -/
def decodeUtf8Lossy (bytes : List Nat) : List Char :=
  decodeUtf8LossyFuel bytes.length bytes

/-- The sniffing prefixes of `IngestService::looks_like_html`, in source
order. -/
def htmlSniffPrefixes : List (List Char) :=
  ["<!doctype".toList, "<html".toList, "<head".toList, "<body".toList,
   "<meta".toList, "<title".toList, "<".toList]

/-- `IngestService::looks_like_html`
(`src/backend/src/services/ingest.rs:399`): lossily decode the first 512
bytes, strip leading whitespace/BOM, ASCII-lowercase, and test the HTML
prefixes. -/
def looks_like_html (body : List Nat) : Bool :=
  let s := decodeUtf8Lossy (body.take 512)
  let trimmed :=
    (s.dropWhile (fun c => rustIsWhitespace c || c.toNat == 0xFEFF)).map asciiLower
  htmlSniffPrefixes.any (fun p => p.isPrefixOf trimmed)

/-- `IngestService::is_html_content`
(`src/backend/src/services/ingest.rs:384`): allowlist `text/html` and
`application/xhtml+xml`; sniff only for an empty, `text/plain`, or
`application/octet-stream` declared type; reject every other type. -/
def is_html_content (content_type : List Char) (body : List Nat) : Bool :=
  let ct := (trimChars content_type).map asciiLower
  if ("text/html".toList.isPrefixOf ct || "application/xhtml+xml".toList.isPrefixOf ct) then
    true
  else if (ct.isEmpty || "text/plain".toList.isPrefixOf ct ||
      "application/octet-stream".toList.isPrefixOf ct) then
    looks_like_html body
  else
    false


/-! ### URL normalization

`IngestService::normalize_url` trims its input, parses it with
`url::Url::parse`, drops the fragment, and serializes.  The parser itself
lives in the external `url` crate, so it is modelled here. -/

/-- Characters allowed after the first in a URL scheme. -/
def schemeOk (c : Char) : Bool :=
  isAsciiAlpha c || isAsciiDigit c || c == '+' || c == '-' || c == '.'

/-- Characters the host model accepts (registrable domain characters plus
`:` for a port). -/
def hostCharOk (c : Char) : Bool :=
  isAsciiAlpha c || isAsciiDigit c || c == '.' || c == '-' || c == '_' ||
  c == ':' || c == '~'

/-- The path/query percent-encode set of the model: C0 controls and space,
the WHATWG path specials, DEL, and all non-ASCII. -/
def needsPctEncode (c : Char) : Bool :=
  c.toNat ≤ 0x20 || c.toNat == 0x22 || c.toNat == 0x3C || c.toNat == 0x3E ||
  c.toNat == 0x60 || c.toNat == 0x7B || c.toNat == 0x7D || c.toNat == 0x7F ||
  0x80 ≤ c.toNat

/-- Uppercase hex digit for a value below 16. -/
def hexDigitChar (n : Nat) : Char :=
  if n < 10 then Char.ofNat (48 + n) else Char.ofNat (55 + n)

/-- UTF-8 encoding of one scalar value. -/
def utf8Bytes (c : Char) : List Nat :=
  let n := c.toNat
  if n < 0x80 then [n]
  else if n < 0x800 then [0xC0 + n / 64, 0x80 + n % 64]
  else if n < 0x10000 then [0xE0 + n / 4096, 0x80 + n / 64 % 64, 0x80 + n % 64]
  else [0xF0 + n / 262144, 0x80 + n / 4096 % 64, 0x80 + n / 64 % 64, 0x80 + n % 64]

/-- Percent-encode one character as `%XX` per UTF-8 byte. -/
def pctEncodeChar (c : Char) : List Char :=
  (utf8Bytes c).foldr (fun b acc => '%' :: hexDigitChar (b / 16) :: hexDigitChar (b % 16) :: acc) []

/-- Percent-encode a component: encode exactly the characters in the
encode set, keep the rest (in particular `%` itself is kept). -/
def pctEncode (l : List Char) : List Char :=
  l.foldr (fun c acc => (if needsPctEncode c then pctEncodeChar c else [c]) ++ acc) []

/-- A parsed absolute URL of the model: scheme, host, non-empty encoded
path, optional encoded query, optional fragment. -/
structure ModelUrl where
  scheme : List Char
  host : List Char
  path : List Char
  query : Option (List Char)
  fragment : Option (List Char)
deriving DecidableEq

/-- Split a character list at the first occurrence of one character. -/
def splitChar (d : Char) : List Char → Option (List Char × List Char)
  | [] => none
  | c :: rest =>
    if c = d then some ([], rest)
    else (splitChar d rest).map (fun p => (c :: p.1, p.2))

/-- Scheme validity: non-empty, ASCII-alphabetic first character, scheme
characters throughout. -/
def schemeValid (s : List Char) : Bool :=
  !s.isEmpty && isAsciiAlpha (s.headD ' ') && s.all schemeOk

/-- Host delimiter test: stop at `/`, `?`, `#`. -/
def notHostSep (c : Char) : Bool :=
  !(c == '/') && !(c == '?') && !(c == '#')

/-- Path delimiter test: stop at `?`, `#`. -/
def notPathSep (c : Char) : Bool :=
  !(c == '?') && !(c == '#')

/-- Modelled from the spec: `url::Url::parse` (the `url` crate is outside
this repository) restricted to hierarchical `scheme://host/path?query#fragment`
URLs — "parse as absolute URL", producing the canonical form: lowercased
scheme and host, percent-encoded path (empty path becomes `/`) and query,
fragment kept verbatim. -/
def parseUrl (s : List Char) : Option ModelUrl :=
  match splitChar ':' s with
  | none => none
  | some (schemeRaw, rest) =>
    if schemeValid schemeRaw then
      if ['/', '/'].isPrefixOf rest then
        let after := rest.drop 2
        let hostRaw := after.takeWhile notHostSep
        let rem := after.dropWhile notHostSep
        if !hostRaw.isEmpty && hostRaw.all hostCharOk then
          let pathRaw := rem.takeWhile notPathSep
          let rem2 := rem.dropWhile notPathSep
          let path := if pathRaw.isEmpty then ['/'] else pctEncode pathRaw
          match rem2 with
          | '?' :: qs =>
            some { scheme := schemeRaw.map asciiLower, host := hostRaw.map asciiLower,
                   path := path,
                   query := some (pctEncode (qs.takeWhile (fun c => !(c == '#')))),
                   fragment :=
                     match qs.dropWhile (fun c => !(c == '#')) with
                     | _ :: fs => some fs
                     | [] => none }
          | '#' :: fs =>
            some { scheme := schemeRaw.map asciiLower, host := hostRaw.map asciiLower,
                   path := path, query := none, fragment := some fs }
          | _ =>
            some { scheme := schemeRaw.map asciiLower, host := hostRaw.map asciiLower,
                   path := path, query := none, fragment := none }
        else none
      else none
    else none

/-- `Url::to_string`: canonical serialization of a parsed URL. -/
def serializeUrl (u : ModelUrl) : List Char :=
  u.scheme ++ ':' :: '/' :: '/' :: u.host ++ u.path ++
    (match u.query with | none => [] | some q => '?' :: q) ++
    (match u.fragment with | none => [] | some f => '#' :: f)

/-- `Url::set_fragment(None)`. -/
def setFragmentNone (u : ModelUrl) : ModelUrl :=
  { u with fragment := none }

/-- `IngestService::normalize_url`
(`src/backend/src/services/ingest.rs:366`): trim, parse, drop the
fragment, serialize; `None` for blank or unparsable input. -/
def normalize_url (raw : List Char) : Option (List Char) :=
  let trimmed := trimChars raw
  if trimmed.isEmpty then none
  else
    match parseUrl trimmed with
    | none => none
    | some u => some (serializeUrl (setFragmentNone u))


/-- The invariants `parseUrl` guarantees for its result: a valid,
lowercase-stable scheme; a non-empty, separator-free, lowercase-stable
host; a non-empty path starting with `/` whose characters are outside the
encode set and not path separators; and a query (when present) whose
characters are outside the encode set and not `#`. -/
def UrlInv (u : ModelUrl) : Prop :=
  schemeValid u.scheme = true ∧
  u.scheme.map asciiLower = u.scheme ∧
  u.host.isEmpty = false ∧
  u.host.all hostCharOk = true ∧
  u.host.map asciiLower = u.host ∧
  u.path ≠ [] ∧
  u.path.head? = some '/' ∧
  (∀ c ∈ u.path, needsPctEncode c = false ∧ notPathSep c = true) ∧
  (∀ q, u.query = some q → ∀ c ∈ q, needsPctEncode c = false ∧ (c == '#') = false)

/-! ### Ingestion admission (`IngestService::ingest_urls`)

The `bookmarks` table has `url TEXT NOT NULL UNIQUE` (`main.rs::init_db`);
`INSERT OR IGNORE` inserts a fresh `queued` row exactly when no row with
that url exists.  The claim-relevant projection of the table is the list
of url keys in insertion order. -/

/-- The error taxonomy of `errors.rs` (`AppError`), by kind and message. -/
inductive AppErrorKind
  | badRequest (msg : List Char)
  | notFound (msg : List Char)
  | internal (msg : List Char)
deriving DecidableEq

/-- Record-store keys plus the running `accepted`/`deduped` counters of one
`ingest_urls` call. -/
structure IngestState where
  db : List (List Char)
  accepted : Nat
  deduped : Nat
deriving DecidableEq

/-- The per-URL body of the `ingest_urls` loop
(`src/backend/src/services/ingest.rs:46`): unparsable input counts
`deduped`; `INSERT OR IGNORE` with zero rows affected counts `deduped`;
a fresh insertion appends the row and counts `accepted`. -/
def ingestStep (st : IngestState) (raw : List Char) : IngestState :=
  match normalize_url raw with
  | none => { st with deduped := st.deduped + 1 }
  | some u =>
    if u ∈ st.db then { st with deduped := st.deduped + 1 }
    else { st with db := st.db ++ [u], accepted := st.accepted + 1 }

/-- `IngestService::ingest_urls`: empty batches are a `(0,0)` no-op,
batches over `MAX_URLS = 100` fail with `BadRequest`, otherwise the loop
runs over every raw URL. -/
def ingest_urls (db : List (List Char)) (urls : List (List Char)) :
    Except AppErrorKind IngestState :=
  if urls.isEmpty then .ok ⟨db, 0, 0⟩
  else if 100 < urls.length then .error (.badRequest "too many urls".toList)
  else .ok (urls.foldl ingestStep ⟨db, 0, 0⟩)

/-- One ingestion batch against the running store: a rejected batch
leaves the store untouched, an accepted batch threads its final store and
adds its counters. -/
def ingestBatchStep (st : IngestState) (batch : List (List Char)) : IngestState :=
  match ingest_urls st.db batch with
  | .error _ => st
  | .ok st' => ⟨st'.db, st.accepted + st'.accepted, st.deduped + st'.deduped⟩

/-- A sequence of ingestion batches against one store. -/
def ingestBatches (db : List (List Char)) (batches : List (List (List Char))) :
    IngestState :=
  batches.foldl ingestBatchStep ⟨db, 0, 0⟩

/-! ### Per-URL pipeline (`IngestService::process_url`)

The network fetch, the external HTML parser (`scraper`) and renderer
(`html2text`), the index commit, and the final row update are the
pipeline's effectful collaborators; each enters the model as an oracle
value.  The model returns the terminal write made to the bookmark row. -/

/-- View of an `Except` value as a sum, for deciding equality. -/
def exceptToSum {ε α : Type} : Except ε α → ε ⊕ α
  | .error e => .inl e
  | .ok a => .inr a

instance {ε α : Type} [DecidableEq ε] [DecidableEq α] : DecidableEq (Except ε α) :=
  fun a b =>
    decidable_of_iff (exceptToSum a = exceptToSum b)
      (by cases a <;> cases b <;> simp [exceptToSum])

/-- Result of `http_client.get(url).send()` plus the body read: either a
transport error, or a response with status, content type, and a body read
that may itself fail. -/
inductive FetchOutcome
  | requestError (msg : List Char)
  | response (status : Nat) (contentType : List Char) (body : Except (List Char) (List Nat))
deriving DecidableEq

/-- Oracles for one `process_url` run. -/
structure PipelineEnv where
  fetch : FetchOutcome
  /-- `Html::parse_document` output on the fetched body (external parser). -/
  parsedDoc : DomDocument
  /-- `html2text::from_read` output on the fetched body (external renderer). -/
  renderedText : List Char
  /-- Outcome of `index_document`'s `writer.commit()` / `reader.reload()`. -/
  indexCommit : Except (List Char) Unit
  /-- Whether the final `UPDATE ... SET status='indexed'` succeeds. -/
  dbUpdateOk : Bool

/-- The terminal write `process_url` makes to the bookmark row. -/
inductive RowWrite
  | failed (httpStatus : Nat) (contentType : List Char) (error : List Char)
  | indexed (title : Option (List Char)) (excerpt : Option (List Char))
      (httpStatus : Nat) (contentType : List Char)
  | noWrite
deriving DecidableEq

/-- `StatusCode::is_success`: a 2xx status. -/
def statusIsSuccess (status : Nat) : Bool :=
  200 ≤ status && status ≤ 299

/-- Decimal rendering of the status for the `"http error: {status}"`
message.  (The real `Display` also appends the canonical reason phrase, a
short ASCII text; only the message's characters feed `truncate_error`, so
the phrase is omitted without affecting any bound.) -/
def statusDisplay (status : Nat) : List Char :=
  Nat.toDigits 10 status

/-- `IngestService::body_preview`
(`src/backend/src/services/ingest.rs:420`): lossily decode the first 600
bytes, clean whitespace, `None` when empty, else truncate to 240
characters with `'…'`. -/
def body_preview (body : List Nat) : Option (List Char) :=
  let s := decodeUtf8Lossy (body.take 600)
  let out := clean_text s
  if out.isEmpty then none
  else some (if 240 < out.length then out.take 240 ++ ['…'] else out)

/-- `IngestService::process_url`
(`src/backend/src/services/ingest.rs:82`), as the terminal row write of
one run under the given oracles. -/
def process_url (env : PipelineEnv) : RowWrite :=
  match env.fetch with
  | .requestError msg => .failed 0 [] (truncate_error msg)
  | .response status ct bodyRes =>
    match bodyRes with
    | .error err => .failed status ct (truncate_error err)
    | .ok body =>
      if !statusIsSuccess status then
        let base := "http error: ".toList ++ statusDisplay status
        let message :=
          match body_preview body with
          | some p => base ++ " body_preview=".toList ++ p
          | none => base
        .failed status ct (truncate_error message)
      else if !is_html_content ct body then
        .failed status ct "unsupported content type".toList
      else
        let title := serviceExtractTitle env.parsedDoc
        let cleaned := clean_text env.renderedText
        let excerpt := serviceMakeExcerpt cleaned 280
        match env.indexCommit with
        | .error e => .failed status ct e
        | .ok _ =>
          if env.dbUpdateOk then .indexed title excerpt status ct else .noWrite

/-! ### Bookmark deletion (`BookmarkService::delete`) -/

/-- A bookmark row, projected to the fields deletion touches. -/
structure BookmarkRow where
  id : Int
  url : List Char
deriving DecidableEq

/-- Outcomes of the index writer's `commit()` and the reader's `reload()`
during deletion. -/
structure DeleteEnv where
  commitOk : Bool
  reloadOk : Bool

/-- Result of a deletion attempt: the returned value plus the record-store
rows and the set of index document keys afterwards. -/
structure DeleteOutcome where
  result : Except AppErrorKind Unit
  db : List BookmarkRow
  index : List (List Char)
deriving DecidableEq

/-- `BookmarkService::delete`
(`src/backend/src/services/bookmarks.rs:34`): reject non-positive ids;
look the row up by id (`NotFound` when absent); delete the url's index
documents and commit (a failed commit discards the buffered delete and
leaves everything unchanged; a failed reload happens after the commit);
then delete the row, reporting `NotFound` when no row was affected. -/
def bookmarkDelete (db : List BookmarkRow) (index : List (List Char))
    (env : DeleteEnv) (id : Int) : DeleteOutcome :=
  if id ≤ 0 then ⟨.error (.badRequest "invalid bookmark id".toList), db, index⟩
  else
    match db.find? (fun r => r.id == id) with
    | none => ⟨.error (.notFound "bookmark not found".toList), db, index⟩
    | some r =>
      if env.commitOk then
        let index' := index.filter (fun u => !(u == r.url))
        if env.reloadOk then
          let db' := db.filter (fun row => !(row.id == id))
          if db.length == db'.length then
            ⟨.error (.notFound "bookmark not found".toList), db', index'⟩
          else ⟨.ok (), db', index'⟩
        else ⟨.error (.internal "reload".toList), db, index'⟩
      else ⟨.error (.internal "commit".toList), db, index⟩

/-! ### Search route (`src/src/routes/search.rs`)

The full-text engine is external (`tantivy`); it enters the model as an
oracle mapping the trimmed query text to either a parse error (`BadQuery`)
or the full ranked hit list, of which the route reports the count and one
page.  `page`/`per_page` are `u32`, so the offset multiplication wraps
modulo `2^32`. -/

/-- One search hit as shaped by the route (score omitted: floating-point
relevance is not modelled, and no claim touches it). -/
structure SearchHit where
  url : List Char
  title : Option (List Char)
  excerpt : Option (List Char)
deriving DecidableEq

/-- Query-string parameters of `GET /v1/search`. -/
structure SearchParams where
  q : List Char
  page : Option Nat
  per_page : Option Nat

/-- `params.page.unwrap_or(1).max(1)`. -/
def pageOf (params : SearchParams) : Nat :=
  max (params.page.getD 1) 1

/-- `params.per_page.unwrap_or(10).clamp(1, 50)`. -/
def perPageOf (params : SearchParams) : Nat :=
  min (max (params.per_page.getD 10) 1) 50

/-- `search` (`src/src/routes/search.rs:12`): empty trimmed query returns
`(0, [])` before any engine work; otherwise parse the query (errors become
`BadRequest`) and page through the ranked hits at offset
`(page - 1) * per_page` computed in `u32` arithmetic. -/
def legacySearch (engine : List Char → Except (List Char) (List SearchHit))
    (params : SearchParams) : Except AppErrorKind (Nat × List SearchHit) :=
  let query := trimChars params.q
  if query.isEmpty then .ok (0, [])
  else
    match engine query with
    | .error e => .error (.badRequest e)
    | .ok hits =>
      let offset := (pageOf params - 1) * perPageOf params % 4294967296
      .ok (hits.length, (hits.drop offset).take (perPageOf params))


/-! ### Spec-side comparison definitions and concrete instances -/

/-- The claim's character-count reading of the suffix-stripping loop:
identical to `trimSiteSuffixLoop` except that the left side's length is
counted in characters (Unicode scalar values) instead of UTF-8 bytes. -/
def charTrimSiteSuffixLoop (trimmed : List Char) : List (List Char) → Option (List Char)
  | [] => none
  | d :: ds =>
    match splitOnce d trimmed with
    | some (left, _) =>
      let left' := trimChars left
      if 6 ≤ left'.length then some left' else charTrimSiteSuffixLoop trimmed ds
    | none => charTrimSiteSuffixLoop trimmed ds

/-- The claim's character-count reading of `trim_site_suffix`. -/
def charTrimSiteSuffix (title : List Char) : Option (List Char) :=
  let trimmed := trimChars title
  if trimmed = [] then none
  else some ((charTrimSiteSuffixLoop trimmed siteSuffixDelims).getD trimmed)

/-- The HTML allowlist test of `is_html_content`: the trimmed, lowercased
content type starts with `text/html` or `application/xhtml+xml`. -/
def htmlAllowlisted (ct : List Char) : Bool :=
  "text/html".toList.isPrefixOf ((trimChars ct).map asciiLower) ||
  "application/xhtml+xml".toList.isPrefixOf ((trimChars ct).map asciiLower)

/-- The sniffing-fallback test of `is_html_content`: the trimmed,
lowercased content type is empty or starts with `text/plain` or
`application/octet-stream`. -/
def sniffFallback (ct : List Char) : Bool :=
  ((trimChars ct).map asciiLower).isEmpty ||
  "text/plain".toList.isPrefixOf ((trimChars ct).map asciiLower) ||
  "application/octet-stream".toList.isPrefixOf ((trimChars ct).map asciiLower)

/-- Bytes of an ASCII string (used for concrete body buffers). -/
def asciiBytes (s : String) : List Nat :=
  s.toList.map Char.toNat

/-- Pipeline oracle values for a run whose fetch succeeds with an HTML
response but whose index commit fails with a 1000-character error. -/
def envIndexError : PipelineEnv where
  fetch := .response 200 "text/html".toList (.ok (asciiBytes "<html><body>x</body></html>"))
  parsedDoc := []
  renderedText := "x".toList
  indexCommit := .error (List.replicate 1000 'e')
  dbUpdateOk := true

/-- Pipeline oracle values for a run whose transport fails with a
1000-character error message. -/
def envTransportError : PipelineEnv where
  fetch := .requestError (List.replicate 1000 'r')
  parsedDoc := []
  renderedText := []
  indexCommit := .ok ()
  dbUpdateOk := true

/-- A document whose only title source is a `twitter:title` meta tag. -/
def twitterOnlyDoc : DomDocument :=
  [⟨"meta".toList,
    [("name".toList, "twitter:title".toList), ("content".toList, "T".toList)], []⟩]

/-- A document carrying both `og:title="A"` and `<title>B</title>`. -/
def ogAndTitleDoc : DomDocument :=
  [⟨"meta".toList,
    [("property".toList, "og:title".toList), ("content".toList, "A".toList)], []⟩,
   ⟨"title".toList, [], ["B".toList]⟩]

/-- A document whose `og:title` content is whitespace-only and whose first
`<h1>` holds `" B "`. -/
def ogBlankDoc : DomDocument :=
  [⟨"meta".toList,
    [("property".toList, "og:title".toList), ("content".toList, "   ".toList)], []⟩,
   ⟨"h1".toList, [], [" B ".toList]⟩]

/-- The `og:title` candidate of the extractors. -/
def ogCand (doc : DomDocument) : Option (List Char) :=
  select_meta_content doc "meta".toList "property".toList "og:title".toList

/-- The first-`<h1>`-text candidate of the extractors. -/
def h1Cand (doc : DomDocument) : Option (List Char) :=
  select_text doc "h1".toList

/-- The suffix-stripped `<title>` candidate of the extractors. -/
def titleCand (doc : DomDocument) : Option (List Char) :=
  (select_text doc "title".toList).bind trim_site_suffix

/-- Is a service result the `NotFound` error? -/
def isNotFoundResult (r : Except AppErrorKind Unit) : Bool :=
  match r with
  | .error (.notFound _) => true
  | _ => false

/-- One concrete search hit. -/
def oneHit : SearchHit :=
  ⟨"https://e.com/x".toList, some "t".toList, none⟩

/-- An engine oracle returning exactly one hit for every query. -/
def oneHitEngine : List Char → Except (List Char) (List SearchHit) :=
  fun _ => .ok [oneHit]

/-- Search parameters whose `u32` offset product wraps to zero:
`(page - 1) * per_page = 2^31 * 2 = 2^32`. -/
def wrapParams : SearchParams :=
  ⟨"a".toList, some 2147483649, some 2⟩

/-- The adjacency relation "not both whitespace", used to state that
cleaned text has no two adjacent whitespace characters. -/
def noTwoWs (a b : Char) : Prop :=
  rustIsWhitespace a = false ∨ rustIsWhitespace b = false

/-! ### Sanity checks on concrete inputs -/

example : clean_text "  a \t b ".toList = "a b".toList := by decide
example : serviceMakeExcerpt "ab".toList 5 = some "ab…".toList := by decide
example : routesMakeExcerpt "ab".toList 5 = some "ab".toList := by decide
example : trim_site_suffix "My Article - Example Site".toList = some "My Article".toList := by
  decide
example : trim_site_suffix "Hi - X".toList = some "Hi - X".toList := by decide
example : splitOnce " - ".toList "a - b - c".toList = some ("a".toList, "b - c".toList) := by
  decide
example : decodeUtf8Lossy [0x61, 0xC3, 0xA9, 0x62] = "aéb".toList := by decide
example : decodeUtf8Lossy [0x61, 0xC3] = ['a', replChar] := by decide
example : is_html_content "application/json".toList (asciiBytes "<html>") = false := by decide
example : is_html_content [] (asciiBytes "<!DOCTYPE html>") = true := by decide
example : is_html_content "TEXT/HTML; charset=utf-8".toList [] = true := by decide
example : normalize_url "https://e.com/a#frag".toList = some "https://e.com/a".toList := by
  decide
example : normalize_url "  HTTPS://E.com  ".toList = some "https://e.com/".toList := by decide
example : normalize_url "https://e.com/a b".toList = some "https://e.com/a%20b".toList := by
  decide
example : normalize_url "notaurl".toList = none := by decide
example : normalize_url "https://e.com/x?q=1#sec".toList = some "https://e.com/x?q=1".toList := by
  decide
example :
    ingest_urls [] ["https://e.com/a#frag".toList, "https://e.com/a".toList] =
      .ok ⟨["https://e.com/a".toList], 1, 1⟩ := by decide

/-! ### Helper lemmas -/

theorem charOfNat_toNat {n : Nat} (h : n < 55296) : (Char.ofNat n).toNat = n := by
  have hv : n < 55296 ∨ 57343 < n ∧ n < 1114112 := Or.inl h
  simp [Char.ofNat, dif_pos hv, Char.ofNatAux, Char.toNat, UInt32.ofNatCore,
    UInt32.toNat, BitVec.toNat_ofNatLt]

theorem charToNat_inj {c d : Char} (h : c.toNat = d.toNat) : c = d := by
  apply Char.ext
  exact UInt32.toNat.inj h

set_option maxRecDepth 20000 in
/-- C3: the live `IngestService::make_excerpt` appends the ellipsis to
every non-empty text, so a 280-character input at `maxChars = 280` yields a
281-character excerpt ending in `'…'`, where the claim (and the legacy
route-level `make_excerpt`, which matches the claim) yields exactly the 280
characters with no ellipsis; on a 300-character input both variants agree
with the claimed 281-character result. -/
theorem serviceMakeExcerpt_at_cap :
    serviceMakeExcerpt (List.replicate 280 'x') 280 =
      some (List.replicate 280 'x' ++ ['…']) ∧
    (List.replicate 280 'x' ++ ['…']).length = 281 ∧
    routesMakeExcerpt (List.replicate 280 'x') 280 = some (List.replicate 280 'x') ∧
    serviceMakeExcerpt (List.replicate 300 'x') 280 =
      some (List.replicate 280 'x' ++ ['…']) ∧
    routesMakeExcerpt (List.replicate 300 'x') 280 =
      some (List.replicate 280 'x' ++ ['…']) ∧
    serviceMakeExcerpt [] 280 = none := by
  refine ⟨by decide, by decide, by decide, by decide, by decide, by decide⟩

/-- C6: `is_html_content` classification: an allowlisted content type
(`text/html`, `application/xhtml+xml`) is accepted for every body; an
empty, `text/plain`, or `application/octet-stream` type defers to the
`looks_like_html` sniff of the body; every other declared type is rejected
for every body (no sniffing); in particular `application/json` with a body
starting `<html>` is rejected and an empty type with a body starting
`<!DOCTYPE html>` is accepted. -/
theorem is_html_content_classification :
    (∀ ct body, htmlAllowlisted ct = true → is_html_content ct body = true) ∧
    (∀ ct body, htmlAllowlisted ct = false → sniffFallback ct = true →
        is_html_content ct body = looks_like_html body) ∧
    (∀ ct body, htmlAllowlisted ct = false → sniffFallback ct = false →
        is_html_content ct body = false) ∧
    (∀ body, is_html_content "application/json".toList body = false) ∧
    is_html_content "application/json".toList (asciiBytes "<html>") = false ∧
    is_html_content [] (asciiBytes "<!DOCTYPE html>") = true := by
  have h1 : ∀ ct body, htmlAllowlisted ct = true → is_html_content ct body = true := by
    intro ct body h
    simp only [is_html_content, htmlAllowlisted] at *
    rw [if_pos h]
  have h2 : ∀ ct body, htmlAllowlisted ct = false → sniffFallback ct = true →
      is_html_content ct body = looks_like_html body := by
    intro ct body ha hb
    simp only [is_html_content, htmlAllowlisted, sniffFallback] at *
    rw [ha, hb]
    simp
  have h3 : ∀ ct body, htmlAllowlisted ct = false → sniffFallback ct = false →
      is_html_content ct body = false := by
    intro ct body ha hb
    simp only [is_html_content, htmlAllowlisted, sniffFallback] at *
    rw [ha, hb]
    simp
  refine ⟨h1, h2, h3, ?_, by decide, by decide⟩
  intro body
  exact h3 _ body (by decide) (by decide)

/-- C6 witness: the classification theorem applied at concrete content
types, discharging its hypotheses by evaluation. -/
theorem is_html_content_classification_witness :
    is_html_content "text/html".toList [] = true ∧
    is_html_content "text/plain".toList (asciiBytes "<p>") =
      looks_like_html (asciiBytes "<p>") ∧
    is_html_content "image/png".toList (asciiBytes "<html>") = false :=
  ⟨is_html_content_classification.1 _ [] (by decide),
   is_html_content_classification.2.1 _ _ (by decide) (by decide),
   is_html_content_classification.2.2.1 _ _ (by decide) (by decide)⟩

/-- C4 counterexample: a document whose only title source is a
`twitter:title` meta tag.  The claim says the extracted title is that tag's
content, but the live `IngestService::extract_title` has no `twitter:title`
candidate and yields `none`; only the legacy route-level variant returns
`"T"`. -/
theorem serviceExtractTitle_twitter_ignored :
    serviceExtractTitle twitterOnlyDoc = none ∧
    select_meta_content twitterOnlyDoc "meta".toList "name".toList "twitter:title".toList =
      some "T".toList ∧
    routesExtractTitle twitterOnlyDoc = some "T".toList := by
  refine ⟨by decide, by decide, by decide⟩

/-- C4 (amended): the live extractor returns the first non-empty candidate
in the priority order `og:title` meta content → first `<h1>` text →
`<title>` text with the site suffix stripped (no `twitter:title`
candidate); candidates are trimmed and rejected when empty, so a blank
`og:title` falls through to the `<h1>` text, and `og:title="A"` wins over
`<title>B</title>`. -/
theorem serviceExtractTitle_priority :
    (∀ doc : DomDocument,
        serviceExtractTitle doc =
          match ogCand doc with
          | some t => some t
          | none =>
            match h1Cand doc with
            | some t => some t
            | none => titleCand doc) ∧
    serviceExtractTitle ogAndTitleDoc = some "A".toList ∧
    serviceExtractTitle ogBlankDoc = some "B".toList := by
  refine ⟨?_, by decide, by decide⟩
  intro doc
  have e : serviceExtractTitle doc =
      ([ogCand doc, h1Cand doc, titleCand doc].filterMap id).head? := rfl
  rw [e]
  rcases h1 : ogCand doc with _ | t1 <;>
    rcases h2 : h1Cand doc with _ | t2 <;>
      rcases h3 : titleCand doc with _ | t3 <;>
        simp [List.filterMap_cons]

theorem splitOnce_eq (d : List Char) :
    ∀ l a b : List Char, splitOnce d l = some (a, b) → l = a ++ d ++ b := by
  intro l
  induction l with
  | nil => intro a b h; simp [splitOnce] at h
  | cons c rest ih =>
    intro a b h
    simp only [splitOnce] at h
    split at h
    · rename_i hp
      obtain ⟨t, ht⟩ := List.isPrefixOf_iff_prefix.mp hp
      simp only [Option.some.injEq, Prod.mk.injEq] at h
      obtain ⟨ha, hb⟩ := h
      subst ha
      subst hb
      rw [List.nil_append, ← ht, List.drop_left]
    · cases hs : splitOnce d rest with
      | none => rw [hs] at h; simp at h
      | some p =>
        obtain ⟨a', b'⟩ := p
        rw [hs] at h
        simp only [Option.map_some', Option.some.injEq, Prod.mk.injEq] at h
        obtain ⟨ha, hb⟩ := h
        subst hb
        rw [← ha]
        simp [ih a' b' hs]

theorem dropWhile_suffix_self (p : Char → Bool) (l : List Char) :
    l.dropWhile p <:+ l := by
  induction l with
  | nil => simp
  | cons a as ih =>
    by_cases h : p a
    · rw [List.dropWhile_cons_of_pos h]
      exact ih.trans (List.suffix_cons a as)
    · rw [List.dropWhile_cons_of_neg h]

theorem trimChars_prefix_dropWhile (l : List Char) :
    trimChars l <+: l.dropWhile rustIsWhitespace := by
  have h := dropWhile_suffix_self rustIsWhitespace (l.dropWhile rustIsWhitespace).reverse
  have h2 := List.reverse_prefix.mpr h
  rw [List.reverse_reverse] at h2
  exact h2

theorem trimChars_infix_self (l : List Char) : trimChars l <:+: l := by
  have h1 := List.IsPrefix.isInfix (trimChars_prefix_dropWhile l)
  have h2 := List.IsSuffix.isInfix (dropWhile_suffix_self rustIsWhitespace l)
  exact List.IsInfix.trans h1 h2

theorem mem_trimChars {c : Char} {l : List Char} (h : c ∈ trimChars l) : c ∈ l := by
  have hs := List.IsInfix.sublist (trimChars_infix_self l)
  exact List.Sublist.mem h hs

theorem utf8Size_ascii {c : Char} (h : c.toNat < 128) : c.utf8Size = 1 := by
  have hle : c.val ≤ (127 : UInt32) := by
    show c.val.toNat ≤ (127 : UInt32).toNat
    have h127 : (127 : UInt32).toNat = 127 := rfl
    rw [h127]
    exact Nat.lt_succ_iff.mp h
  simp [Char.utf8Size, hle]

theorem utf8Len_ascii {l : List Char} (h : ∀ c ∈ l, c.toNat < 128) :
    utf8Len l = l.length := by
  induction l with
  | nil => rfl
  | cons c cs ih =>
    have hc : c.utf8Size = 1 := utf8Size_ascii (h c (List.mem_cons_self c cs))
    have hcs := ih (fun x hx => h x (List.mem_cons_of_mem c hx))
    simp [utf8Len, List.map_cons, List.sum_cons, hc] at *
    omega

theorem trimSiteSuffixLoop_ascii {trimmed : List Char}
    (h : ∀ c ∈ trimmed, c.toNat < 128) :
    ∀ ds : List (List Char),
      trimSiteSuffixLoop trimmed ds = charTrimSiteSuffixLoop trimmed ds := by
  intro ds
  induction ds with
  | nil => rfl
  | cons d ds ih =>
    cases hs : splitOnce d trimmed with
    | none => simp only [trimSiteSuffixLoop, charTrimSiteSuffixLoop, hs]; exact ih
    | some p =>
      obtain ⟨left, right⟩ := p
      have hleft : ∀ c ∈ trimChars left, c.toNat < 128 := by
        intro c hc
        apply h
        rw [splitOnce_eq d trimmed left right hs]
        exact List.mem_append_left _ (List.mem_append_left _ (mem_trimChars hc))
      simp only [trimSiteSuffixLoop, charTrimSiteSuffixLoop, hs, utf8Len_ascii hleft]
      split
      · rfl
      · exact ih

/-- C7 counterexample: a title whose left segment at `" - "` has 5
characters but 6 UTF-8 bytes.  The claim's character-count reading keeps
the original trimmed title (5 < 6), but `IngestService::trim_site_suffix`
compares `str::len`, i.e. bytes (6 ≥ 6), and strips the suffix. -/
theorem trim_site_suffix_char_count_falsified :
    trim_site_suffix "Héllo - Site".toList = some "Héllo".toList ∧
    charTrimSiteSuffix "Héllo - Site".toList = some "Héllo - Site".toList ∧
    ("Héllo".toList).length = 5 ∧
    utf8Len "Héllo".toList = 6 ∧
    trim_site_suffix "Héllo - Site".toList ≠ charTrimSiteSuffix "Héllo - Site".toList := by
  refine ⟨by decide, by decide, by decide, by decide, by decide⟩

/-- C7 (amended): suffix stripping tries `" — "`, `" | "`, `" - "`,
`" · "` in order, splits at the first occurrence, and uses the trimmed
left side when its UTF-8 byte length (`str::len`) — not its character
count — is at least 6, keeping the trimmed original otherwise; for titles
of ASCII characters byte length and character count coincide and the
original claim's reading agrees, as in the two spec examples. -/
theorem trim_site_suffix_spec :
    trim_site_suffix "My Article - Example Site".toList = some "My Article".toList ∧
    trim_site_suffix "Hi - X".toList = some "Hi - X".toList ∧
    (∀ title : List Char, trimChars title = [] → trim_site_suffix title = none) ∧
    (∀ title : List Char, (∀ c ∈ title, c.toNat < 128) →
        trim_site_suffix title = charTrimSiteSuffix title) := by
  refine ⟨by decide, by decide, ?_, ?_⟩
  · intro title h
    simp [trim_site_suffix, h]
  · intro title h
    have ht : ∀ c ∈ trimChars title, c.toNat < 128 := fun c hc => h c (mem_trimChars hc)
    simp only [trim_site_suffix, charTrimSiteSuffix,
      trimSiteSuffixLoop_ascii ht siteSuffixDelims]

/-- C7 witness: the amended theorem applied at a concrete ASCII title and
at a concrete whitespace-only title. -/
theorem trim_site_suffix_spec_witness :
    trim_site_suffix "A - B and C - D".toList = charTrimSiteSuffix "A - B and C - D".toList ∧
    trim_site_suffix "   ".toList = none :=
  ⟨trim_site_suffix_spec.2.2.2 _ (by decide), trim_site_suffix_spec.2.2.1 _ (by decide)⟩

/-- C2 counterexample: `delete(0)` on an empty store.  No row has id 0
(ids are positive), so the claim requires `NotFound`, but
`BookmarkService::delete` rejects non-positive ids with `BadRequest`
before consulting the store. -/
theorem bookmarkDelete_nonpositive_id :
    (bookmarkDelete [] [] ⟨true, true⟩ 0).result =
      .error (.badRequest "invalid bookmark id".toList) ∧
    isNotFoundResult (bookmarkDelete [] [] ⟨true, true⟩ 0).result = false ∧
    (bookmarkDelete [] [] ⟨true, true⟩ 0).db = [] ∧
    (bookmarkDelete [] [] ⟨true, true⟩ 0).index = [] := by
  refine ⟨by decide, by decide, by decide, by decide⟩

/-- C2 (amended): for non-positive ids `delete` fails with `BadRequest`
and changes nothing; for positive ids it fails with `NotFound` (changing
nothing) when no row has the id; otherwise it removes the index documents
for the row's URL and the row itself, and when the index commit fails the
deletion fails with both the row and the index unchanged — the row is
never removed when index removal fails (a reload failure after the
committed index delete likewise leaves the row in place). -/
theorem bookmarkDelete_spec :
    ∀ (db : List BookmarkRow) (index : List (List Char)) (env : DeleteEnv) (id : Int),
      (id ≤ 0 →
        bookmarkDelete db index env id =
          ⟨.error (.badRequest "invalid bookmark id".toList), db, index⟩) ∧
      (0 < id → db.find? (fun r => r.id == id) = none →
        bookmarkDelete db index env id =
          ⟨.error (.notFound "bookmark not found".toList), db, index⟩) ∧
      (∀ r, 0 < id → db.find? (fun r => r.id == id) = some r → env.commitOk = false →
        bookmarkDelete db index env id =
          ⟨.error (.internal "commit".toList), db, index⟩) ∧
      (∀ r, 0 < id → db.find? (fun r => r.id == id) = some r → env.commitOk = true →
          env.reloadOk = false →
        bookmarkDelete db index env id =
          ⟨.error (.internal "reload".toList), db,
            index.filter (fun u => !(u == r.url))⟩) ∧
      (∀ r, 0 < id → db.find? (fun r => r.id == id) = some r → env.commitOk = true →
          env.reloadOk = true →
        bookmarkDelete db index env id =
          ⟨.ok (), db.filter (fun row => !(row.id == id)),
            index.filter (fun u => !(u == r.url))⟩) := by
  intro db index env id
  refine ⟨?_, ?_, ?_, ?_, ?_⟩
  · intro h
    simp [bookmarkDelete, h]
  · intro h1 h2
    have hn : ¬(id ≤ 0) := not_le.mpr h1
    simp [bookmarkDelete, hn, h2]
  · intro r h1 hfind hc
    have hn : ¬(id ≤ 0) := not_le.mpr h1
    simp [bookmarkDelete, hn, hfind, hc]
  · intro r h1 hfind hc hr
    have hn : ¬(id ≤ 0) := not_le.mpr h1
    simp [bookmarkDelete, hn, hfind, hc, hr]
  · intro r h1 hfind hc hr
    have hn : ¬(id ≤ 0) := not_le.mpr h1
    have hmem := List.mem_of_find?_eq_some hfind
    have hid := List.find?_some hfind
    have hlt : (db.filter (fun row => !(row.id == id))).length < db.length :=
      List.length_filter_lt_length_iff_exists.mpr ⟨r, hmem, by simp [hid]⟩
    have hne : (db.length == (db.filter (fun row => !(row.id == id))).length) = false :=
      beq_eq_false_iff_ne.mpr (Nat.ne_of_gt hlt)
    simp [bookmarkDelete, hn, hfind, hc, hr, hne]

/-- C2 witness: the amended theorem applied at a one-row store, for a
successful deletion and for a deletion whose index commit fails. -/
theorem bookmarkDelete_spec_witness :
    bookmarkDelete [⟨1, "https://e.com/x".toList⟩] ["https://e.com/x".toList]
        ⟨true, true⟩ 1 = ⟨.ok (), [], []⟩ ∧
    bookmarkDelete [⟨1, "https://e.com/x".toList⟩] ["https://e.com/x".toList]
        ⟨false, true⟩ 1 =
      ⟨.error (.internal "commit".toList), [⟨1, "https://e.com/x".toList⟩],
        ["https://e.com/x".toList]⟩ := by
  constructor
  · have h := (bookmarkDelete_spec [⟨1, "https://e.com/x".toList⟩]
        ["https://e.com/x".toList] ⟨true, true⟩ 1).2.2.2.2
        ⟨1, "https://e.com/x".toList⟩ (by decide) (by decide) rfl rfl
    rw [h]
    decide
  · have h := (bookmarkDelete_spec [⟨1, "https://e.com/x".toList⟩]
        ["https://e.com/x".toList] ⟨false, true⟩ 1).2.2.1
        ⟨1, "https://e.com/x".toList⟩ (by decide) (by decide) rfl
    exact h

/-- C8 counterexample: `page = 2147483649`, `per_page = 2` make the
mathematical offset `(page-1)*perPage = 2^32`, which wraps to 0 in the
route's `u32` multiplication: against an engine holding one hit the route
returns that hit, while the claim's offset would skip past it and return
none. -/
theorem legacySearch_offset_wraps :
    legacySearch oneHitEngine wrapParams = .ok (1, [oneHit]) ∧
    (pageOf wrapParams - 1) * perPageOf wrapParams = 4294967296 ∧
    ([oneHit].drop ((pageOf wrapParams - 1) * perPageOf wrapParams)).take
        (perPageOf wrapParams) = [] := by
  have hp : (pageOf wrapParams - 1) * perPageOf wrapParams = 4294967296 := by
    norm_num [pageOf, perPageOf, wrapParams]
  refine ⟨by decide, hp, ?_⟩
  rw [hp, List.drop_eq_nil_iff.mpr (by norm_num), List.take_nil]

/-- C8 (amended): an empty or whitespace-only query returns `(0, [])` for
every engine oracle (the engine is never consulted); `page` defaults to 1
with minimum 1, `per_page` defaults to 10 and is clamped to `[1, 50]`; on
a successful engine reply the route reports the full hit count and the
page starting at offset `((page-1)*perPage) mod 2^32` — equal to the
claimed `(page-1)*perPage` whenever that product fits in `u32` — and at
most `perPage` (hence at most 50) results are returned. -/
theorem legacySearch_spec :
    (∀ engine params, trimChars params.q = [] → legacySearch engine params = .ok (0, [])) ∧
    (∀ params : SearchParams,
        1 ≤ perPageOf params ∧ perPageOf params ≤ 50 ∧ 1 ≤ pageOf params) ∧
    (∀ params : SearchParams, params.page = none → pageOf params = 1) ∧
    (∀ params : SearchParams, params.per_page = none → perPageOf params = 10) ∧
    (∀ engine params hits, engine (trimChars params.q) = .ok hits →
        trimChars params.q ≠ [] →
        legacySearch engine params =
          .ok (hits.length,
            (hits.drop ((pageOf params - 1) * perPageOf params % 4294967296)).take
              (perPageOf params))) ∧
    (∀ engine params hits, engine (trimChars params.q) = .ok hits →
        trimChars params.q ≠ [] →
        (pageOf params - 1) * perPageOf params < 4294967296 →
        legacySearch engine params =
          .ok (hits.length,
            (hits.drop ((pageOf params - 1) * perPageOf params)).take (perPageOf params))) ∧
    (∀ engine params tot res, legacySearch engine params = .ok (tot, res) →
        res.length ≤ perPageOf params ∧ res.length ≤ 50) := by
  have hmain : ∀ engine params hits, engine (trimChars params.q) = .ok hits →
      trimChars params.q ≠ [] →
      legacySearch engine params =
        .ok (hits.length,
          (hits.drop ((pageOf params - 1) * perPageOf params % 4294967296)).take
            (perPageOf params)) := by
    intro engine params hits he hq
    have hne : (trimChars params.q).isEmpty = false := by
      rw [List.isEmpty_eq_false_iff_exists_mem]
      cases h : trimChars params.q with
      | nil => exact absurd h hq
      | cons a as => exact ⟨a, h ▸ List.mem_cons_self a as⟩
    simp [legacySearch, hne, he]
  have hbounds : ∀ params : SearchParams,
      1 ≤ perPageOf params ∧ perPageOf params ≤ 50 ∧ 1 ≤ pageOf params := by
    intro params
    refine ⟨?_, ?_, ?_⟩
    · simp only [perPageOf]
      omega
    · simp only [perPageOf]
      omega
    · simp only [pageOf]
      omega
  refine ⟨?_, hbounds, ?_, ?_, hmain, ?_, ?_⟩
  · intro engine params h
    simp [legacySearch, h]
  · intro params h
    simp [pageOf, h]
  · intro params h
    simp [perPageOf, h]
  · intro engine params hits he hq hlt
    rw [hmain engine params hits he hq, Nat.mod_eq_of_lt hlt]
  · intro engine params tot res h
    by_cases hq : trimChars params.q = []
    · have : legacySearch engine params = .ok (0, []) := by simp [legacySearch, hq]
      rw [this] at h
      obtain ⟨-, hres⟩ := Prod.mk.injEq .. ▸ Except.ok.inj h
      subst hres
      exact ⟨Nat.zero_le _, Nat.zero_le _⟩
    · cases he : engine (trimChars params.q) with
      | error e =>
        have hne : (trimChars params.q).isEmpty = false := by
          rw [List.isEmpty_eq_false_iff_exists_mem]
          cases hl : trimChars params.q with
          | nil => exact absurd hl hq
          | cons a as => exact ⟨a, hl ▸ List.mem_cons_self a as⟩
        have : legacySearch engine params = .error (.badRequest e) := by
          simp [legacySearch, hne, he]
        rw [this] at h
        exact absurd h (by simp)
      | ok hits =>
        rw [hmain engine params hits he hq] at h
        obtain ⟨-, hres⟩ := Prod.mk.injEq .. ▸ Except.ok.inj h
        subst hres
        constructor
        · exact List.length_take_le _ _
        · exact le_trans (List.length_take_le _ _) (hbounds params).2.1

/-- C8 witness: the amended theorem applied at a whitespace-only query and
at a concrete one-hit engine with default paging. -/
theorem legacySearch_spec_witness :
    legacySearch oneHitEngine ⟨"  ".toList, none, none⟩ = .ok (0, []) ∧
    legacySearch oneHitEngine ⟨"b".toList, none, none⟩ = .ok (1, [oneHit]) := by
  constructor
  · exact legacySearch_spec.1 oneHitEngine _ (by decide)
  · have h := legacySearch_spec.2.2.2.2.1 oneHitEngine ⟨"b".toList, none, none⟩ [oneHit]
      rfl (by decide)
    rw [h]
    decide

theorem ws_space : rustIsWhitespace ' ' = true := by decide

theorem collapseWs_ws_eq_space :
    ∀ (l : List Char) (p : Bool) (c : Char), c ∈ collapseWs l p →
      rustIsWhitespace c = true → c = ' ' := by
  intro l
  induction l with
  | nil => intro p c hc hw; simp [collapseWs] at hc
  | cons a as ih =>
    intro p c hc hw
    by_cases ha : rustIsWhitespace a
    · cases p with
      | true =>
        simp [collapseWs, ha] at hc
        exact ih true c hc hw
      | false =>
        simp [collapseWs, ha] at hc
        rcases hc with h | h
        · exact h
        · exact ih true c h hw
    · simp [collapseWs, ha] at hc
      rcases hc with h | h
      · subst h
        exact absurd hw (by simpa using ha)
      · exact ih false c h hw

theorem collapseWs_head_not_ws :
    ∀ (l : List Char) (c : Char), (collapseWs l true).head? = some c →
      rustIsWhitespace c = false := by
  intro l
  induction l with
  | nil => intro c h; simp [collapseWs] at h
  | cons a as ih =>
    intro c h
    by_cases ha : rustIsWhitespace a
    · simp only [collapseWs, ha, if_true, if_pos] at h
      exact ih c h
    · simp [collapseWs, ha] at h
      subst h
      simpa using ha

theorem collapseWs_chain (l : List Char) :
    ∀ p : Bool, List.Chain' noTwoWs (collapseWs l p) := by
  induction l with
  | nil => intro p; simp [collapseWs]
  | cons a as ih =>
    intro p
    by_cases ha : rustIsWhitespace a
    · cases p with
      | true => simpa [collapseWs, ha] using ih true
      | false =>
        rw [show collapseWs (a :: as) false = ' ' :: collapseWs as true from by
          simp [collapseWs, ha]]
        rw [List.chain'_cons']
        refine ⟨?_, ih true⟩
        intro y hy
        exact Or.inr (collapseWs_head_not_ws as y (Option.mem_def.mp hy))
    · rw [show collapseWs (a :: as) p = a :: collapseWs as false from by
        simp [collapseWs, ha]]
      rw [List.chain'_cons']
      refine ⟨?_, ih false⟩
      intro y _
      exact Or.inl (by simpa using ha)

theorem collapseWs_filter (l : List Char) :
    ∀ p : Bool,
      (collapseWs l p).filter (fun c => !rustIsWhitespace c) =
        l.filter (fun c => !rustIsWhitespace c) := by
  induction l with
  | nil => intro p; simp [collapseWs]
  | cons a as ih =>
    intro p
    by_cases ha : rustIsWhitespace a
    · cases p with
      | true => simp [collapseWs, ha, List.filter_cons, ih true]
      | false => simp [collapseWs, ha, ws_space, List.filter_cons, ih true]
    · simp [collapseWs, ha, List.filter_cons, ih false]

theorem collapseWs_fixed (l : List Char)
    (hsp : ∀ c ∈ l, rustIsWhitespace c = true → c = ' ')
    (hch : List.Chain' noTwoWs l) :
    collapseWs l false = l ∧
      ((∀ c, l.head? = some c → rustIsWhitespace c = false) → collapseWs l true = l) := by
  induction l with
  | nil => exact ⟨rfl, fun _ => rfl⟩
  | cons a as ih =>
    have hsp' : ∀ c ∈ as, rustIsWhitespace c = true → c = ' ' :=
      fun c hc => hsp c (List.mem_cons_of_mem _ hc)
    have hpair := List.chain'_cons'.mp hch
    obtain ⟨ih1, ih2⟩ := ih hsp' hpair.2
    by_cases ha : rustIsWhitespace a
    · have haa : a = ' ' := hsp a (List.mem_cons_self _ _) ha
      have hasHead : ∀ c, as.head? = some c → rustIsWhitespace c = false := by
        intro c hc
        rcases hpair.1 c (Option.mem_def.mpr hc) with h | h
        · exact absurd ha (by simp [h])
        · exact h
      have h2 := ih2 hasHead
      constructor
      · simp [collapseWs, ha, h2, haa, ws_space]
      · intro hhd
        have := hhd a rfl
        rw [this] at ha
        exact absurd ha (by simp)
    · constructor
      · simp [collapseWs, ha, ih1]
      · intro _
        simp [collapseWs, ha, ih1]

theorem filter_dropWhile_ws (l : List Char) :
    (l.dropWhile rustIsWhitespace).filter (fun c => !rustIsWhitespace c) =
      l.filter (fun c => !rustIsWhitespace c) := by
  induction l with
  | nil => rfl
  | cons a as ih =>
    by_cases ha : rustIsWhitespace a
    · rw [List.dropWhile_cons_of_pos ha, ih, List.filter_cons_of_neg (by simpa using ha)]
    · rw [List.dropWhile_cons_of_neg ha]

theorem filter_trimChars (l : List Char) :
    (trimChars l).filter (fun c => !rustIsWhitespace c) =
      l.filter (fun c => !rustIsWhitespace c) := by
  unfold trimChars
  rw [List.filter_reverse, filter_dropWhile_ws, List.filter_reverse, List.reverse_reverse,
    filter_dropWhile_ws]

theorem head_dropWhile_not_ws (l : List Char) :
    ∀ c, (l.dropWhile rustIsWhitespace).head? = some c → rustIsWhitespace c = false := by
  intro c h
  have hd := List.head?_dropWhile_not rustIsWhitespace l
  rw [h] at hd
  exact hd

theorem trimChars_head_not_ws (l : List Char) :
    ∀ c, (trimChars l).head? = some c → rustIsWhitespace c = false := by
  intro c h
  obtain ⟨t, ht⟩ := trimChars_prefix_dropWhile l
  have hdw : (l.dropWhile rustIsWhitespace).head? = some c := by
    rw [← ht]
    cases hl : trimChars l with
    | nil => rw [hl] at h; simp at h
    | cons x xs =>
      rw [hl] at h
      simp only [List.head?_cons, Option.some.injEq] at h
      simp [h]
  exact head_dropWhile_not_ws l c hdw

theorem trimChars_getLast_not_ws (l : List Char) :
    ∀ c, (trimChars l).getLast? = some c → rustIsWhitespace c = false := by
  intro c h
  unfold trimChars at h
  rw [List.getLast?_reverse] at h
  exact head_dropWhile_not_ws _ c h

theorem dropWhile_eq_self_of_head (l : List Char)
    (h : ∀ c, l.head? = some c → rustIsWhitespace c = false) :
    l.dropWhile rustIsWhitespace = l := by
  cases l with
  | nil => rfl
  | cons a as =>
    have := h a rfl
    rw [List.dropWhile_cons_of_neg (by simp [this])]

theorem trimChars_eq_self (l : List Char)
    (hh : ∀ c, l.head? = some c → rustIsWhitespace c = false)
    (hl : ∀ c, l.getLast? = some c → rustIsWhitespace c = false) :
    trimChars l = l := by
  unfold trimChars
  rw [dropWhile_eq_self_of_head l hh]
  rw [dropWhile_eq_self_of_head l.reverse
    (by intro c h; rw [List.head?_reverse] at h; exact hl c h)]
  exact List.reverse_reverse l

theorem clean_text_ws_eq_space (l : List Char) :
    ∀ c ∈ clean_text l, rustIsWhitespace c = true → c = ' ' := by
  intro c hc hw
  exact collapseWs_ws_eq_space l false c (mem_trimChars hc) hw

/-- C9: `clean_text` collapses every whitespace run into a single space
and trims: its output's whitespace characters are all `' '`, no two are
adjacent, it neither starts nor ends with whitespace, and the non-white
content is preserved in order; and it is idempotent. -/
theorem clean_text_spec :
    ∀ l : List Char,
      clean_text (clean_text l) = clean_text l ∧
      (clean_text l).filter (fun c => !rustIsWhitespace c) =
        l.filter (fun c => !rustIsWhitespace c) ∧
      List.Chain' noTwoWs (clean_text l) ∧
      (∀ c ∈ clean_text l, rustIsWhitespace c = true → c = ' ') ∧
      (∀ c, (clean_text l).head? = some c → rustIsWhitespace c = false) ∧
      (∀ c, (clean_text l).getLast? = some c → rustIsWhitespace c = false) := by
  intro l
  have hsp := clean_text_ws_eq_space l
  have hch : List.Chain' noTwoWs (clean_text l) :=
    List.Chain'.infix (collapseWs_chain l false) (trimChars_infix_self _)
  have hh := fun c => trimChars_head_not_ws (collapseWs l false) c
  have hlast := fun c => trimChars_getLast_not_ws (collapseWs l false) c
  refine ⟨?_, ?_, hch, hsp, hh, hlast⟩
  · show trimChars (collapseWs (clean_text l) false) = clean_text l
    rw [(collapseWs_fixed (clean_text l) hsp hch).1]
    exact trimChars_eq_self _ hh hlast
  · show (trimChars (collapseWs l false)).filter _ = _
    rw [filter_trimChars, collapseWs_filter l false]

/-- C9 witness: the specification theorem applied at a concrete input,
with the head-character hypothesis discharged by evaluation. -/
theorem clean_text_spec_witness :
    clean_text (clean_text "  a \t b  ".toList) = clean_text "  a \t b  ".toList ∧
    rustIsWhitespace 'a' = false :=
  ⟨(clean_text_spec "  a \t b  ".toList).1,
   (clean_text_spec "  a \t b  ".toList).2.2.2.2.1 'a' (by decide)⟩

set_option maxRecDepth 100000 in
/-- C5: on the index-commit failure path `process_url` records the index
error verbatim (`mark_failed` is called with `err.to_string()`, not
`truncate_error`), so a 1000-character index error is stored with all
1000 characters — beyond the claimed 900-character cap — while the
transport-error path does truncate (900 kept characters plus the ellipsis
terminator), and `truncate_error` itself always stays within 900 kept
characters plus one ellipsis. -/
theorem process_url_index_error_untruncated :
    process_url envIndexError =
      .failed 200 "text/html".toList (List.replicate 1000 'e') ∧
    (List.replicate 1000 'e').length = 1000 ∧
    truncate_error (List.replicate 1000 'e') = List.replicate 900 'e' ++ ['…'] ∧
    process_url envTransportError =
      .failed 0 [] (List.replicate 900 'r' ++ ['…']) ∧
    (∀ msg : List Char, (truncate_error msg).length ≤ 901) := by
  refine ⟨by decide, by decide, by decide, by decide, ?_⟩
  intro msg
  unfold truncate_error
  split
  · rename_i h
    omega
  · rw [List.length_append, List.length_take]
    simp

theorem ingestStep_db (st : IngestState) (raw : List Char) :
    (ingestStep st raw).db = st.db ∨
      ∃ u, normalize_url raw = some u ∧ u ∉ st.db ∧
        (ingestStep st raw).db = st.db ++ [u] := by
  unfold ingestStep
  cases hn : normalize_url raw with
  | none => exact Or.inl rfl
  | some u =>
    by_cases hm : u ∈ st.db
    · simp [hm]
    · exact Or.inr ⟨u, rfl, hm, by simp [hm]⟩

theorem foldl_ingest_nodup :
    ∀ (urls : List (List Char)) (st : IngestState), st.db.Nodup →
      (urls.foldl ingestStep st).db.Nodup := by
  intro urls
  induction urls with
  | nil => intro st h; exact h
  | cons raw rest ih =>
    intro st h
    rw [List.foldl_cons]
    apply ih
    rcases ingestStep_db st raw with hdb | ⟨u, -, hmem, hdb⟩
    · rw [hdb]; exact h
    · rw [hdb, List.nodup_append]
      refine ⟨h, List.nodup_singleton u, ?_⟩
      intro x hx hxu
      rw [List.mem_singleton.mp hxu] at hx
      exact hmem hx

theorem foldl_ingest_mono :
    ∀ (urls : List (List Char)) (st : IngestState) (u : List Char), u ∈ st.db →
      u ∈ (urls.foldl ingestStep st).db := by
  intro urls
  induction urls with
  | nil => intro st u h; exact h
  | cons raw rest ih =>
    intro st u h
    rw [List.foldl_cons]
    apply ih
    rcases ingestStep_db st raw with hdb | ⟨v, -, -, hdb⟩
    · rw [hdb]; exact h
    · rw [hdb]; exact List.mem_append_left _ h

theorem ingest_urls_nodup {db urls st} (h : ingest_urls db urls = .ok st)
    (hn : db.Nodup) : st.db.Nodup := by
  unfold ingest_urls at h
  split at h
  · cases h; exact hn
  · split at h
    · cases h
    · cases h; exact foldl_ingest_nodup urls ⟨db, 0, 0⟩ hn

theorem ingest_urls_mono {db urls st u} (h : ingest_urls db urls = .ok st)
    (hu : u ∈ db) : u ∈ st.db := by
  unfold ingest_urls at h
  split at h
  · cases h; exact hu
  · split at h
    · cases h
    · cases h; exact foldl_ingest_mono urls ⟨db, 0, 0⟩ u hu

theorem ingestBatchStep_db (st : IngestState) (batch : List (List Char)) :
    (ingestBatchStep st batch).db = st.db ∨
      ∃ st', ingest_urls st.db batch = .ok st' ∧ (ingestBatchStep st batch).db = st'.db := by
  unfold ingestBatchStep
  cases h : ingest_urls st.db batch with
  | error e => exact Or.inl rfl
  | ok st' => exact Or.inr ⟨st', rfl, rfl⟩

theorem ingestBatchesFold_nodup :
    ∀ (batches : List (List (List Char))) (st : IngestState), st.db.Nodup →
      (batches.foldl ingestBatchStep st).db.Nodup := by
  intro batches
  induction batches with
  | nil => intro st h; exact h
  | cons b bs ih =>
    intro st h
    rw [List.foldl_cons]
    apply ih
    rcases ingestBatchStep_db st b with hdb | ⟨st', hok, hdb⟩
    · rw [hdb]; exact h
    · rw [hdb]; exact ingest_urls_nodup hok h

theorem ingestBatchesFold_mono :
    ∀ (batches : List (List (List Char))) (st : IngestState) (u : List Char), u ∈ st.db →
      u ∈ (batches.foldl ingestBatchStep st).db := by
  intro batches
  induction batches with
  | nil => intro st u h; exact h
  | cons b bs ih =>
    intro st u h
    rw [List.foldl_cons]
    apply ih
    rcases ingestBatchStep_db st b with hdb | ⟨st', hok, hdb⟩
    · rw [hdb]; exact h
    · rw [hdb]; exact ingest_urls_mono hok h

theorem count_le_one_of_nodup {u : List Char} :
    ∀ {l : List (List Char)}, l.Nodup → l.count u ≤ 1 := by
  intro l
  induction l with
  | nil => intro _; simp
  | cons a as ih =>
    intro hl
    obtain ⟨hna, hnd⟩ := List.nodup_cons.mp hl
    by_cases hu : u = a
    · subst hu
      simp [List.count_cons, List.count_eq_zero.mpr hna]
    · have hb1 : (u == a) = false := beq_eq_false_iff_ne.mpr hu
      have hb2 : (a == u) = false := beq_eq_false_iff_ne.mpr (Ne.symm hu)
      simpa [List.count_cons, hb1, hb2] using ih hnd

/-- C1: admission dedup.  A submission whose normalized URL is already a
store key counts `deduped`, leaves the store unchanged, and never
increments `accepted`; a fresh key appends exactly one row and counts
`accepted`; across any sequence of batches the store keys stay duplicate
free, so every submitted URL has exactly one row (`count ≤ 1`) and rows
are never lost; two raw URLs whose parses differ at most in the fragment
normalize to the same key; and the concrete fragment pair
`https://e.com/a#frag`, `https://e.com/a` submitted in two batches yields
one row with `accepted = 1`, `deduped = 1`. -/
theorem ingest_urls_dedup_invariant :
    (∀ (st : IngestState) (raw u : List Char), normalize_url raw = some u → u ∈ st.db →
        ingestStep st raw = ⟨st.db, st.accepted, st.deduped + 1⟩) ∧
    (∀ (st : IngestState) (raw u : List Char), normalize_url raw = some u → u ∉ st.db →
        ingestStep st raw = ⟨st.db ++ [u], st.accepted + 1, st.deduped⟩) ∧
    (∀ (db : List (List Char)) (batches : List (List (List Char))), db.Nodup →
        (ingestBatches db batches).db.Nodup) ∧
    (∀ (db : List (List Char)) (batches : List (List (List Char))) (u : List Char),
        db.Nodup → List.count u (ingestBatches db batches).db ≤ 1) ∧
    (∀ (db : List (List Char)) (batches : List (List (List Char))) (u : List Char),
        u ∈ db → u ∈ (ingestBatches db batches).db) ∧
    (∀ (r1 r2 : List Char) (u1 u2 : ModelUrl),
        parseUrl (trimChars r1) = some u1 → parseUrl (trimChars r2) = some u2 →
        setFragmentNone u1 = setFragmentNone u2 → normalize_url r1 = normalize_url r2) ∧
    ingestBatches [] [["https://e.com/a#frag".toList], ["https://e.com/a".toList]] =
      ⟨["https://e.com/a".toList], 1, 1⟩ := by
  have hnodup : ∀ (db : List (List Char)) (batches : List (List (List Char))), db.Nodup →
      (ingestBatches db batches).db.Nodup :=
    fun db batches h => ingestBatchesFold_nodup batches ⟨db, 0, 0⟩ h
  have hparse_some : ∀ (r : List Char) (u : ModelUrl), parseUrl (trimChars r) = some u →
      normalize_url r = some (serializeUrl (setFragmentNone u)) := by
    intro r u hp
    unfold normalize_url
    have hne : (trimChars r).isEmpty = false := by
      cases hl : trimChars r with
      | nil =>
        rw [hl] at hp
        have : parseUrl ([] : List Char) = none := rfl
        rw [this] at hp
        cases hp
      | cons a as => rfl
    simp only [hne, Bool.false_eq_true, if_false, hp]
  refine ⟨?_, ?_, hnodup, ?_, ?_, ?_, by decide⟩
  · intro st raw u hn hm
    simp [ingestStep, hn, hm]
  · intro st raw u hn hm
    simp [ingestStep, hn, hm]
  · intro db batches u h
    exact count_le_one_of_nodup (hnodup db batches h)
  · intro db batches u hu
    exact ingestBatchesFold_mono batches ⟨db, 0, 0⟩ u hu
  · intro r1 r2 u1 u2 h1 h2 heq
    rw [hparse_some r1 u1 h1, hparse_some r2 u2 h2, heq]

/-- C1 witness: the dedup theorem applied at concrete states — a duplicate
submission against a one-row store, a fresh submission against the empty
store, and the fragment-equivalence of two concrete raw URLs. -/
theorem ingest_urls_dedup_invariant_witness :
    ingestStep ⟨["https://e.com/a".toList], 1, 0⟩ "https://e.com/a#frag".toList =
      ⟨["https://e.com/a".toList], 1, 1⟩ ∧
    ingestStep ⟨[], 0, 0⟩ "https://e.com/a".toList =
      ⟨["https://e.com/a".toList], 1, 0⟩ ∧
    normalize_url "https://e.com/a#frag".toList = normalize_url "https://e.com/a".toList :=
  ⟨ingest_urls_dedup_invariant.1 _ _ "https://e.com/a".toList (by decide) (by decide),
   ingest_urls_dedup_invariant.2.1 _ _ "https://e.com/a".toList (by decide) (by decide),
   ingest_urls_dedup_invariant.2.2.2.2.2.1 _ _
     ⟨"https".toList, "e.com".toList, "/a".toList, none, some "frag".toList⟩
     ⟨"https".toList, "e.com".toList, "/a".toList, none, none⟩
     (by decide) (by decide) (by decide)⟩

theorem char_eq_iff_toNat (c d : Char) : c = d ↔ c.toNat = d.toNat :=
  ⟨fun h => h ▸ rfl, charToNat_inj⟩

theorem char_ne_iff_toNat (c d : Char) : c ≠ d ↔ c.toNat ≠ d.toNat :=
  not_congr (char_eq_iff_toNat c d)

theorem asciiLower_toNat (c : Char) :
    (asciiLower c).toNat =
      if 65 ≤ c.toNat ∧ c.toNat ≤ 90 then c.toNat + 32 else c.toNat := by
  unfold asciiLower
  by_cases h : 65 ≤ c.toNat ∧ c.toNat ≤ 90
  · rw [if_pos (by simp [h.1, h.2]), if_pos h]
    exact charOfNat_toNat (by omega)
  · rw [if_neg (by simpa [Bool.and_eq_true, decide_eq_true_eq] using h), if_neg h]

theorem asciiLower_idem (c : Char) : asciiLower (asciiLower c) = asciiLower c := by
  apply charToNat_inj
  have h1 := asciiLower_toNat c
  have h2 := asciiLower_toNat (asciiLower c)
  by_cases h : 65 ≤ c.toNat ∧ c.toNat ≤ 90
  · rw [if_pos h] at h1
    rw [h2, h1, if_neg (by omega)]
  · rw [if_neg h] at h1
    rw [h2, h1, if_neg h]

theorem map_asciiLower_idem (l : List Char) :
    (l.map asciiLower).map asciiLower = l.map asciiLower := by
  induction l with
  | nil => rfl
  | cons a as ih => simp [asciiLower_idem, ih]

theorem isAsciiAlpha_iff (c : Char) :
    isAsciiAlpha c = true ↔
      (65 ≤ c.toNat ∧ c.toNat ≤ 90) ∨ (97 ≤ c.toNat ∧ c.toNat ≤ 122) := by
  unfold isAsciiAlpha
  simp [Bool.or_eq_true, Bool.and_eq_true, decide_eq_true_eq]

theorem schemeOk_iff (c : Char) :
    schemeOk c = true ↔
      (65 ≤ c.toNat ∧ c.toNat ≤ 90) ∨ (97 ≤ c.toNat ∧ c.toNat ≤ 122) ∨
      (48 ≤ c.toNat ∧ c.toNat ≤ 57) ∨ c.toNat = 43 ∨ c.toNat = 45 ∨ c.toNat = 46 := by
  have hplus : ('+').toNat = 43 := rfl
  have hminus : ('-').toNat = 45 := rfl
  have hdot : ('.').toNat = 46 := rfl
  unfold schemeOk isAsciiAlpha isAsciiDigit
  simp only [Bool.or_eq_true, Bool.and_eq_true, decide_eq_true_eq, beq_iff_eq,
    char_eq_iff_toNat, hplus, hminus, hdot]
  omega

theorem hostCharOk_iff (c : Char) :
    hostCharOk c = true ↔
      (65 ≤ c.toNat ∧ c.toNat ≤ 90) ∨ (97 ≤ c.toNat ∧ c.toNat ≤ 122) ∨
      (48 ≤ c.toNat ∧ c.toNat ≤ 57) ∨ c.toNat = 46 ∨ c.toNat = 45 ∨ c.toNat = 95 ∨
      c.toNat = 58 ∨ c.toNat = 126 := by
  have h1 : ('.').toNat = 46 := rfl
  have h2 : ('-').toNat = 45 := rfl
  have h3 : ('_').toNat = 95 := rfl
  have h4 : (':').toNat = 58 := rfl
  have h5 : ('~').toNat = 126 := rfl
  unfold hostCharOk isAsciiAlpha isAsciiDigit
  simp only [Bool.or_eq_true, Bool.and_eq_true, decide_eq_true_eq, beq_iff_eq,
    char_eq_iff_toNat, h1, h2, h3, h4, h5]
  omega

theorem notHostSep_iff (c : Char) :
    notHostSep c = true ↔ c.toNat ≠ 47 ∧ c.toNat ≠ 63 ∧ c.toNat ≠ 35 := by
  have h1 : ('/').toNat = 47 := rfl
  have h2 : ('?').toNat = 63 := rfl
  have h3 : ('#').toNat = 35 := rfl
  unfold notHostSep
  simp only [Bool.and_eq_true, Bool.not_eq_true', beq_eq_false_iff_ne, ne_eq,
    char_eq_iff_toNat, h1, h2, h3]
  tauto

theorem notPathSep_iff (c : Char) :
    notPathSep c = true ↔ c.toNat ≠ 63 ∧ c.toNat ≠ 35 := by
  have h2 : ('?').toNat = 63 := rfl
  have h3 : ('#').toNat = 35 := rfl
  unfold notPathSep
  simp only [Bool.and_eq_true, Bool.not_eq_true', beq_eq_false_iff_ne, ne_eq,
    char_eq_iff_toNat, h2, h3]

theorem needsPctEncode_iff (c : Char) :
    needsPctEncode c = true ↔
      c.toNat ≤ 32 ∨ c.toNat = 34 ∨ c.toNat = 60 ∨ c.toNat = 62 ∨ c.toNat = 96 ∨
      c.toNat = 123 ∨ c.toNat = 125 ∨ c.toNat = 127 ∨ 128 ≤ c.toNat := by
  unfold needsPctEncode
  simp only [Bool.or_eq_true, decide_eq_true_eq, beq_iff_eq]
  tauto

theorem rustIsWhitespace_iff (c : Char) :
    rustIsWhitespace c = true ↔
      (9 ≤ c.toNat ∧ c.toNat ≤ 13) ∨ c.toNat = 32 ∨ c.toNat = 133 ∨ c.toNat = 160 ∨
      c.toNat = 5760 ∨ (8192 ≤ c.toNat ∧ c.toNat ≤ 8202) ∨ c.toNat = 8232 ∨
      c.toNat = 8233 ∨ c.toNat = 8239 ∨ c.toNat = 8287 ∨ c.toNat = 12288 := by
  unfold rustIsWhitespace
  simp only [Bool.or_eq_true, Bool.and_eq_true, decide_eq_true_eq, beq_iff_eq]
  omega

theorem isAsciiAlpha_lower {c : Char} (h : isAsciiAlpha c = true) :
    isAsciiAlpha (asciiLower c) = true := by
  rw [isAsciiAlpha_iff] at h
  rw [isAsciiAlpha_iff, asciiLower_toNat]
  by_cases hc : 65 ≤ c.toNat ∧ c.toNat ≤ 90
  · rw [if_pos hc]; omega
  · rw [if_neg hc]; omega

theorem schemeOk_lower {c : Char} (h : schemeOk c = true) :
    schemeOk (asciiLower c) = true := by
  rw [schemeOk_iff] at h
  rw [schemeOk_iff, asciiLower_toNat]
  by_cases hc : 65 ≤ c.toNat ∧ c.toNat ≤ 90
  · rw [if_pos hc]; omega
  · rw [if_neg hc]; omega

theorem hostCharOk_lower {c : Char} (h : hostCharOk c = true) :
    hostCharOk (asciiLower c) = true := by
  rw [hostCharOk_iff] at h
  rw [hostCharOk_iff, asciiLower_toNat]
  by_cases hc : 65 ≤ c.toNat ∧ c.toNat ≤ 90
  · rw [if_pos hc]; omega
  · rw [if_neg hc]; omega

theorem schemeOk_ne_colon {c : Char} (h : schemeOk c = true) : c ≠ ':' := by
  intro heq
  subst heq
  revert h
  decide

theorem notHostSep_of_hostCharOk {c : Char} (h : hostCharOk c = true) :
    notHostSep c = true := by
  rw [hostCharOk_iff] at h
  rw [notHostSep_iff]
  omega

theorem not_ws_of_not_encode {c : Char} (h : needsPctEncode c = false) :
    rustIsWhitespace c = false := by
  have hn := needsPctEncode_iff c
  rw [h] at hn
  simp only [Bool.false_eq_true, false_iff] at hn
  by_contra hw
  rw [Bool.not_eq_false, rustIsWhitespace_iff] at hw
  omega

theorem not_ws_of_schemeOk {c : Char} (h : schemeOk c = true) :
    rustIsWhitespace c = false := by
  rw [schemeOk_iff] at h
  by_contra hw
  rw [Bool.not_eq_false, rustIsWhitespace_iff] at hw
  omega

theorem not_ws_of_hostCharOk {c : Char} (h : hostCharOk c = true) :
    rustIsWhitespace c = false := by
  rw [hostCharOk_iff] at h
  by_contra hw
  rw [Bool.not_eq_false, rustIsWhitespace_iff] at hw
  omega

theorem hexDigitChar_toNat {n : Nat} (h : n < 16) :
    (hexDigitChar n).toNat = if n < 10 then 48 + n else 55 + n := by
  unfold hexDigitChar
  by_cases hn : n < 10
  · rw [if_pos hn, if_pos hn, charOfNat_toNat (by omega)]
  · rw [if_neg hn, if_neg hn, charOfNat_toNat (by omega)]

theorem hexDigitChar_class {n : Nat} (h : n < 16) :
    needsPctEncode (hexDigitChar n) = false ∧ notPathSep (hexDigitChar n) = true ∧
      (hexDigitChar n == '#') = false ∧ notHostSep (hexDigitChar n) = true := by
  have ht := hexDigitChar_toNat h
  have hrange : (48 ≤ (hexDigitChar n).toNat ∧ (hexDigitChar n).toNat ≤ 57) ∨
      (65 ≤ (hexDigitChar n).toNat ∧ (hexDigitChar n).toNat ≤ 70) := by
    by_cases hn : n < 10
    · rw [if_pos hn] at ht; omega
    · rw [if_neg hn] at ht; omega
  refine ⟨?_, ?_, ?_, ?_⟩
  · by_contra hb
    rw [Bool.not_eq_false, needsPctEncode_iff] at hb
    omega
  · rw [notPathSep_iff]
    omega
  · apply beq_eq_false_iff_ne.mpr
    rw [char_ne_iff_toNat]
    have : ('#').toNat = 35 := rfl
    omega
  · rw [notHostSep_iff]
    omega

theorem pct_class :
    needsPctEncode '%' = false ∧ notPathSep '%' = true ∧ ('%' == '#') = false ∧
      notHostSep '%' = true := by decide

theorem utf8Bytes_lt (c : Char) : ∀ b ∈ utf8Bytes c, b < 256 := by
  have he : c.toNat = c.val.toNat := rfl
  have hv : c.toNat < 1114112 := by
    rcases c.valid with h | h
    · rw [he]; omega
    · rw [he]; omega
  intro b hb
  simp only [utf8Bytes] at hb
  split_ifs at hb with h1 h2 h3
  · rw [List.mem_singleton] at hb; omega
  · simp at hb; rcases hb with h | h <;> omega
  · simp at hb; rcases hb with h | h | h <;> omega
  · simp at hb; rcases hb with h | h | h | h <;> omega

theorem utf8Bytes_ne_nil (c : Char) : utf8Bytes c ≠ [] := by
  simp only [utf8Bytes]
  split_ifs <;> simp

theorem mem_hexFold {x : Char} :
    ∀ bs : List Nat, (∀ b ∈ bs, b < 256) →
      x ∈ bs.foldr (fun b acc => '%' :: hexDigitChar (b / 16) :: hexDigitChar (b % 16) :: acc)
        [] →
      x = '%' ∨ ∃ n, n < 16 ∧ x = hexDigitChar n := by
  intro bs
  induction bs with
  | nil => intro _ h; simp at h
  | cons b rest ih =>
    intro hlt h
    simp only [List.foldr_cons] at h
    rcases List.mem_cons.mp h with h1 | h1
    · exact Or.inl h1
    · rcases List.mem_cons.mp h1 with h2 | h2
      · exact Or.inr ⟨b / 16, by have := hlt b (List.mem_cons_self b rest); omega, h2⟩
      · rcases List.mem_cons.mp h2 with h3 | h3
        · exact Or.inr ⟨b % 16, by omega, h3⟩
        · exact ih (fun y hy => hlt y (List.mem_cons_of_mem b hy)) h3

theorem mem_pctEncodeChar {c x : Char} (h : x ∈ pctEncodeChar c) :
    x = '%' ∨ ∃ n, n < 16 ∧ x = hexDigitChar n :=
  mem_hexFold (utf8Bytes c) (utf8Bytes_lt c) h

theorem pctEncode_cons (a : Char) (l : List Char) :
    pctEncode (a :: l) =
      (if needsPctEncode a then pctEncodeChar a else [a]) ++ pctEncode l := rfl

theorem mem_pctEncode {x : Char} {l : List Char} (h : x ∈ pctEncode l) :
    (x ∈ l ∧ needsPctEncode x = false) ∨ x = '%' ∨
      ∃ n, n < 16 ∧ x = hexDigitChar n := by
  induction l with
  | nil => simp [pctEncode] at h
  | cons a as ih =>
    rw [pctEncode_cons] at h
    rcases List.mem_append.mp h with h1 | h2
    · by_cases ha : needsPctEncode a
      · rw [if_pos ha] at h1
        exact Or.inr (mem_pctEncodeChar h1)
      · rw [if_neg ha] at h1
        rw [List.mem_singleton] at h1
        subst h1
        exact Or.inl ⟨List.mem_cons_self _ _, by simpa using ha⟩
    · rcases ih h2 with ⟨hm, hn⟩ | hr
      · exact Or.inl ⟨List.mem_cons_of_mem _ hm, hn⟩
      · exact Or.inr hr

theorem pctEncode_id {l : List Char} (h : ∀ c ∈ l, needsPctEncode c = false) :
    pctEncode l = l := by
  induction l with
  | nil => rfl
  | cons a as ih =>
    rw [pctEncode_cons, if_neg (by simp [h a (List.mem_cons_self a as)]),
      List.singleton_append, ih (fun c hc => h c (List.mem_cons_of_mem a hc))]

theorem pctEncodeChar_ne_nil (c : Char) : pctEncodeChar c ≠ [] := by
  unfold pctEncodeChar
  cases hb : utf8Bytes c with
  | nil => exact absurd hb (utf8Bytes_ne_nil c)
  | cons b rest => simp

theorem pctEncode_ne_nil {l : List Char} (h : l ≠ []) : pctEncode l ≠ [] := by
  cases l with
  | nil => exact absurd rfl h
  | cons a as =>
    rw [pctEncode_cons]
    by_cases ha : needsPctEncode a
    · rw [if_pos ha]
      simp [pctEncodeChar_ne_nil a]
    · rw [if_neg ha]
      simp

theorem pctEncode_head_slash (t : List Char) :
    (pctEncode ('/' :: t)).head? = some '/' := by
  rw [pctEncode_cons, if_neg (by decide), List.singleton_append, List.head?_cons]

theorem splitChar_append (d : Char) :
    ∀ xs ys : List Char, d ∉ xs → splitChar d (xs ++ d :: ys) = some (xs, ys) := by
  intro xs
  induction xs with
  | nil => intro ys h; simp [splitChar]
  | cons a as ih =>
    intro ys h
    have ha : ¬(a = d) := fun hh => h (hh ▸ List.mem_cons_self a as)
    rw [List.cons_append]
    show (if a = d then some ([], as ++ d :: ys)
      else (splitChar d (as ++ d :: ys)).map (fun p => (a :: p.1, p.2))) = _
    rw [if_neg ha, ih ys (fun hm => h (List.mem_cons_of_mem a hm))]
    rfl

theorem takeWhile_head {p : Char → Bool} {l : List Char} {x : Char} {xs : List Char}
    (h : l.takeWhile p = x :: xs) : l.head? = some x ∧ p x = true := by
  cases l with
  | nil => simp [List.takeWhile] at h
  | cons a as =>
    rw [List.takeWhile_cons] at h
    by_cases hp : p a
    · rw [if_pos hp] at h
      injection h with h1 h2
      subst h1
      exact ⟨rfl, hp⟩
    · rw [if_neg hp] at h
      cases h

theorem schemeValid_lower {s : List Char} (h : schemeValid s = true) :
    schemeValid (s.map asciiLower) = true := by
  simp only [schemeValid, Bool.and_eq_true, Bool.not_eq_true', List.all_eq_true] at h ⊢
  obtain ⟨⟨hne, hhead⟩, hall⟩ := h
  refine ⟨⟨by simpa using hne, ?_⟩, ?_⟩
  · cases s with
    | nil => simp at hne
    | cons a as =>
      simp only [List.map_cons, List.headD_cons] at hhead ⊢
      exact isAsciiAlpha_lower hhead
  · intro c hc
    obtain ⟨d, hd, rfl⟩ := List.mem_map.mp hc
    exact schemeOk_lower (hall d hd)

theorem hostOk_lower {l : List Char} (hne : l.isEmpty = false)
    (hall : l.all hostCharOk = true) :
    (l.map asciiLower).isEmpty = false ∧ (l.map asciiLower).all hostCharOk = true := by
  constructor
  · simpa using hne
  · rw [List.all_eq_true] at hall ⊢
    intro c hc
    obtain ⟨d, hd, rfl⟩ := List.mem_map.mp hc
    exact hostCharOk_lower (hall d hd)

theorem path_head_slash {x : Char} (h1 : notHostSep x = false) (h2 : notPathSep x = true) :
    x = '/' := by
  rw [notPathSep_iff] at h2
  have hn := notHostSep_iff x
  rw [h1] at hn
  simp only [Bool.false_eq_true, false_iff] at hn
  rw [char_eq_iff_toNat]
  have h47 : ('/').toNat = 47 := rfl
  rw [h47]
  omega

theorem path_inv_of {pathRaw p : List Char}
    (hp : p = if pathRaw.isEmpty then ['/'] else pctEncode pathRaw)
    (hpr : ∀ c ∈ pathRaw, notPathSep c = true)
    (hhead : pathRaw.head? = some '/' ∨ pathRaw = []) :
    p ≠ [] ∧ p.head? = some '/' ∧
      ∀ c ∈ p, needsPctEncode c = false ∧ notPathSep c = true := by
  by_cases he : pathRaw.isEmpty = true
  · rw [hp, if_pos he]
    refine ⟨by simp, rfl, ?_⟩
    intro c hc
    rw [List.mem_singleton] at hc
    subst hc
    exact ⟨by decide, by decide⟩
  · rw [hp, if_neg he]
    have hne : pathRaw ≠ [] := by
      intro hh
      rw [hh] at he
      exact he rfl
    rcases hhead with hh | hh
    swap
    · exact absurd hh hne
    obtain ⟨t, ht⟩ : ∃ t, pathRaw = '/' :: t := by
      cases pathRaw with
      | nil => exact absurd rfl hne
      | cons x xs =>
        rw [List.head?_cons] at hh
        exact ⟨xs, by rw [Option.some.inj hh]⟩
    refine ⟨pctEncode_ne_nil hne, ?_, ?_⟩
    · rw [ht]
      exact pctEncode_head_slash t
    · intro c hc
      rcases mem_pctEncode hc with ⟨hm, hn⟩ | hpc | ⟨n, hn16, rfl⟩
      · exact ⟨hn, hpr c hm⟩
      · subst hpc
        exact ⟨pct_class.1, pct_class.2.1⟩
      · exact ⟨(hexDigitChar_class hn16).1, (hexDigitChar_class hn16).2.1⟩

theorem query_inv_of {qs q : List Char}
    (hq : q = pctEncode (qs.takeWhile (fun c => !(c == '#')))) :
    ∀ c ∈ q, needsPctEncode c = false ∧ (c == '#') = false := by
  intro c hc
  rw [hq] at hc
  rcases mem_pctEncode hc with ⟨hm, hn⟩ | hpc | ⟨n, hn16, rfl⟩
  · have hw := List.mem_takeWhile_imp hm
    exact ⟨hn, by simpa using hw⟩
  · subst hpc
    exact ⟨pct_class.1, pct_class.2.2.1⟩
  · exact ⟨(hexDigitChar_class hn16).1, (hexDigitChar_class hn16).2.2.1⟩

theorem parseUrl_inv {s : List Char} {u : ModelUrl} (h : parseUrl s = some u) :
    UrlInv u := by
  unfold parseUrl at h
  cases hsp : splitChar ':' s with
  | none => simp only [hsp] at h; cases h
  | some pr =>
    obtain ⟨schemeRaw, rest⟩ := pr
    simp only [hsp] at h
    by_cases hsv : schemeValid schemeRaw = true
    swap
    · rw [if_neg hsv] at h; cases h
    rw [if_pos hsv] at h
    by_cases hpre : (['/', '/'].isPrefixOf rest) = true
    swap
    · rw [if_neg hpre] at h; cases h
    rw [if_pos hpre] at h
    generalize hHR : (rest.drop 2).takeWhile notHostSep = hostRaw at h
    generalize hRem : (rest.drop 2).dropWhile notHostSep = rem at h
    by_cases hhost : (!hostRaw.isEmpty && hostRaw.all hostCharOk) = true
    swap
    · rw [if_neg hhost] at h; cases h
    rw [if_pos hhost] at h
    rw [Bool.and_eq_true, Bool.not_eq_true'] at hhost
    obtain ⟨hhne, hhall⟩ := hhost
    generalize hPR : rem.takeWhile notPathSep = pathRaw at h
    generalize hR2 : rem.dropWhile notPathSep = rem2 at h
    generalize hPath : (if pathRaw.isEmpty then ['/'] else pctEncode pathRaw) = path at h
    have hpr : ∀ c ∈ pathRaw, notPathSep c = true := by
      intro c hc
      rw [← hPR] at hc
      exact List.mem_takeWhile_imp hc
    have hhead : pathRaw.head? = some '/' ∨ pathRaw = [] := by
      cases hpw : pathRaw with
      | nil => exact Or.inr rfl
      | cons x xs =>
        left
        rw [hpw] at hPR
        obtain ⟨hrhead, hx⟩ := takeWhile_head hPR
        have hsep : notHostSep x = false := by
          have hd := List.head?_dropWhile_not notHostSep (rest.drop 2)
          rw [hRem, hrhead] at hd
          exact hd
        rw [List.head?_cons, path_head_slash hsep hx]
    have hpathinv := path_inv_of hPath.symm hpr hhead
    have hhostinv := hostOk_lower hhne hhall
    split at h
    · rename_i qs
      obtain rfl := Option.some.inj h
      exact ⟨schemeValid_lower hsv, map_asciiLower_idem schemeRaw, hhostinv.1, hhostinv.2,
        map_asciiLower_idem hostRaw, hpathinv.1, hpathinv.2.1, hpathinv.2.2,
        fun q hq => query_inv_of (Option.some.inj hq).symm⟩
    · rename_i fs
      obtain rfl := Option.some.inj h
      exact ⟨schemeValid_lower hsv, map_asciiLower_idem schemeRaw, hhostinv.1, hhostinv.2,
        map_asciiLower_idem hostRaw, hpathinv.1, hpathinv.2.1, hpathinv.2.2,
        fun q hq => by cases hq⟩
    · obtain rfl := Option.some.inj h
      exact ⟨schemeValid_lower hsv, map_asciiLower_idem schemeRaw, hhostinv.1, hhostinv.2,
        map_asciiLower_idem hostRaw, hpathinv.1, hpathinv.2.1, hpathinv.2.2,
        fun q hq => by cases hq⟩

theorem takeWhile_all {p : Char → Bool} :
    ∀ {l : List Char}, (∀ c ∈ l, p c = true) → l.takeWhile p = l := by
  intro l
  induction l with
  | nil => intro _; rfl
  | cons a as ih =>
    intro h
    rw [List.takeWhile_cons, if_pos (h a (List.mem_cons_self a as)),
      ih (fun c hc => h c (List.mem_cons_of_mem a hc))]

theorem dropWhile_all {p : Char → Bool} :
    ∀ {l : List Char}, (∀ c ∈ l, p c = true) → l.dropWhile p = [] := by
  intro l
  induction l with
  | nil => intro _; rfl
  | cons a as ih =>
    intro h
    rw [List.dropWhile_cons_of_pos (h a (List.mem_cons_self a as)),
      ih (fun c hc => h c (List.mem_cons_of_mem a hc))]

theorem isEmpty_false_of_ne_nil {l : List Char} (h : l ≠ []) : l.isEmpty = false := by
  cases l with
  | nil => exact absurd rfl h
  | cons a as => rfl

theorem trimChars_eq_self_of_all {l : List Char}
    (h : ∀ c ∈ l, rustIsWhitespace c = false) : trimChars l = l := by
  apply trimChars_eq_self
  · intro c hc
    cases l with
    | nil => cases hc
    | cons a as =>
      rw [List.head?_cons] at hc
      rw [← Option.some.inj hc]
      exact h a (List.mem_cons_self a as)
  · intro c hc
    exact h c (List.mem_of_mem_getLast? hc)

theorem parse_serialize (u : ModelUrl) (hinv : UrlInv u) (hfrag : u.fragment = none) :
    parseUrl (serializeUrl u) = some u := by
  obtain ⟨us, uh, up, uq, uf⟩ := u
  unfold UrlInv at hinv
  obtain ⟨hsv, hslow, hhne, hhall, hhlow, hpne, hphead, hpchars, hqchars⟩ := hinv
  have hf : uf = none := hfrag
  subst hf
  have hscheme_mem : ∀ c ∈ us, schemeOk c = true := by
    have h := hsv
    simp only [schemeValid, Bool.and_eq_true, List.all_eq_true] at h
    exact h.2
  have hcolon : ':' ∉ us := fun hc => schemeOk_ne_colon (hscheme_mem _ hc) rfl
  have hhostsep : ∀ c ∈ uh, notHostSep c = true :=
    fun c hc => notHostSep_of_hostCharOk (List.all_eq_true.mp hhall c hc)
  have hpathsep : ∀ c ∈ up, notPathSep c = true := fun c hc => (hpchars c hc).2
  have hpathenc : ∀ c ∈ up, needsPctEncode c = false := fun c hc => (hpchars c hc).1
  obtain ⟨t, hpt⟩ : ∃ t, up = '/' :: t := by
    cases hp : up with
    | nil => exact absurd hp hpne
    | cons x xs =>
      rw [hp, List.head?_cons] at hphead
      exact ⟨xs, by rw [Option.some.inj hphead]⟩
  subst hpt
  have hhostif : (!uh.isEmpty && uh.all hostCharOk) = true := by
    rw [hhne, hhall]
    rfl
  cases uq with
  | none =>
    have hser : serializeUrl ⟨us, uh, '/' :: t, none, none⟩ =
        us ++ ':' :: ('/' :: '/' :: (uh ++ '/' :: t)) := by
      simp [serializeUrl, List.append_assoc]
    rw [hser]
    unfold parseUrl
    have hsc := splitChar_append ':' us ('/' :: '/' :: (uh ++ '/' :: t)) hcolon
    simp only [hsc]
    rw [if_pos hsv]
    rw [if_pos (show (['/', '/'].isPrefixOf ('/' :: '/' :: (uh ++ '/' :: t))) = true from by
      simp [List.isPrefixOf])]
    have hdrop : ('/' :: '/' :: (uh ++ '/' :: t)).drop 2 = uh ++ '/' :: t := rfl
    have htw : (uh ++ '/' :: t).takeWhile notHostSep = uh := by
      rw [List.takeWhile_append_of_pos hhostsep, List.takeWhile_cons_of_neg (by decide)]
      simp
    have hdw : (uh ++ '/' :: t).dropWhile notHostSep = '/' :: t := by
      rw [List.dropWhile_append_of_pos hhostsep, List.dropWhile_cons_of_neg (by decide)]
    have hptw : ('/' :: t).takeWhile notPathSep = '/' :: t := takeWhile_all hpathsep
    have hpdw : ('/' :: t).dropWhile notPathSep = [] := dropWhile_all hpathsep
    have henc : pctEncode ('/' :: t) = '/' :: t := pctEncode_id hpathenc
    simp only [hdrop, htw, hdw, hhostif, if_true, hptw, hpdw, List.isEmpty_cons,
      Bool.false_eq_true, if_false, henc, hslow, hhlow]
  | some q =>
    have hqc : ∀ c ∈ q, needsPctEncode c = false ∧ (c == '#') = false := hqchars q rfl
    have hser : serializeUrl ⟨us, uh, '/' :: t, some q, none⟩ =
        us ++ ':' :: ('/' :: '/' :: (uh ++ '/' :: (t ++ '?' :: q))) := by
      simp [serializeUrl, List.append_assoc]
    rw [hser]
    unfold parseUrl
    have hsc := splitChar_append ':' us ('/' :: '/' :: (uh ++ '/' :: (t ++ '?' :: q))) hcolon
    simp only [hsc]
    rw [if_pos hsv]
    rw [if_pos
      (show (['/', '/'].isPrefixOf ('/' :: '/' :: (uh ++ '/' :: (t ++ '?' :: q)))) = true from by
        simp [List.isPrefixOf])]
    have hdrop : ('/' :: '/' :: (uh ++ '/' :: (t ++ '?' :: q))).drop 2 =
        uh ++ '/' :: (t ++ '?' :: q) := rfl
    have htw : (uh ++ '/' :: (t ++ '?' :: q)).takeWhile notHostSep = uh := by
      rw [List.takeWhile_append_of_pos hhostsep, List.takeWhile_cons_of_neg (by decide)]
      simp
    have hdw : (uh ++ '/' :: (t ++ '?' :: q)).dropWhile notHostSep = '/' :: (t ++ '?' :: q) := by
      rw [List.dropWhile_append_of_pos hhostsep, List.dropWhile_cons_of_neg (by decide)]
    have hassoc : ('/' : Char) :: (t ++ '?' :: q) = ('/' :: t) ++ '?' :: q := by
      rw [List.cons_append]
    have hptw : (('/' : Char) :: (t ++ '?' :: q)).takeWhile notPathSep = '/' :: t := by
      rw [hassoc, List.takeWhile_append_of_pos hpathsep,
        List.takeWhile_cons_of_neg (by decide)]
      simp
    have hpdw : (('/' : Char) :: (t ++ '?' :: q)).dropWhile notPathSep = '?' :: q := by
      rw [hassoc, List.dropWhile_append_of_pos hpathsep,
        List.dropWhile_cons_of_neg (by decide)]
    have henc : pctEncode ('/' :: t) = '/' :: t := pctEncode_id hpathenc
    have hqtw : q.takeWhile (fun c => !(c == '#')) = q :=
      takeWhile_all (fun c hc => by rw [Bool.not_eq_true', (hqc c hc).2])
    have hqdw : q.dropWhile (fun c => !(c == '#')) = [] :=
      dropWhile_all (fun c hc => by rw [Bool.not_eq_true', (hqc c hc).2])
    have hencq : pctEncode q = q := pctEncode_id (fun c hc => (hqc c hc).1)
    simp only [hdrop, htw, hdw, hhostif, if_true, hptw, hpdw, List.isEmpty_cons,
      Bool.false_eq_true, if_false, henc, hqtw, hqdw, hencq, hslow, hhlow]

theorem serializeUrl_no_ws (u : ModelUrl) (hinv : UrlInv u) (hfrag : u.fragment = none) :
    ∀ c ∈ serializeUrl u, rustIsWhitespace c = false := by
  obtain ⟨us, uh, up, uq, uf⟩ := u
  unfold UrlInv at hinv
  obtain ⟨hsv, -, -, hhall, -, -, -, hpchars, hqchars⟩ := hinv
  have hf : uf = none := hfrag
  subst hf
  have hscheme_mem : ∀ c ∈ us, schemeOk c = true := by
    have h := hsv
    simp only [schemeValid, Bool.and_eq_true, List.all_eq_true] at h
    exact h.2
  intro c hc
  cases uq with
  | none =>
    simp only [serializeUrl, List.append_nil, List.mem_append, List.mem_cons] at hc
    rcases hc with (hs | hcc) | hp
    · exact not_ws_of_schemeOk (hscheme_mem c hs)
    · rcases hcc with rfl | rfl | rfl | hh
      · decide
      · decide
      · decide
      · exact not_ws_of_hostCharOk (List.all_eq_true.mp hhall c hh)
    · exact not_ws_of_not_encode (hpchars c hp).1
  | some q =>
    simp only [serializeUrl, List.append_nil, List.mem_append, List.mem_cons] at hc
    rcases hc with ((hs | hcc) | hp) | hq
    · exact not_ws_of_schemeOk (hscheme_mem c hs)
    · rcases hcc with rfl | rfl | rfl | hh
      · decide
      · decide
      · decide
      · exact not_ws_of_hostCharOk (List.all_eq_true.mp hhall c hh)
    · exact not_ws_of_not_encode (hpchars c hp).1
    · rcases hq with rfl | hq'
      · decide
      · exact not_ws_of_not_encode (hqchars q rfl c hq').1

theorem serializeUrl_ne_nil (u : ModelUrl) : serializeUrl u ≠ [] := by
  obtain ⟨us, uh, up, uq, uf⟩ := u
  simp only [serializeUrl]
  intro h
  rcases List.append_eq_nil.mp h with ⟨h1, -⟩
  rcases List.append_eq_nil.mp h1 with ⟨h2, -⟩
  rcases List.append_eq_nil.mp h2 with ⟨h3, -⟩
  rcases List.append_eq_nil.mp h3 with ⟨-, h4⟩
  cases h4

/-- C10: URL normalization is idempotent on its own output — whenever
`normalize_url raw = some t`, also `normalize_url t = some t`: the stored
dedup key is a fixed point of normalization, so re-submitting a stored URL
string always dedupes against its own row. -/
theorem normalize_url_idempotent :
    ∀ raw t : List Char, normalize_url raw = some t → normalize_url t = some t := by
  intro raw t h
  unfold normalize_url at h
  by_cases he : (trimChars raw).isEmpty = true
  · rw [if_pos he] at h; cases h
  rw [if_neg he] at h
  cases hp : parseUrl (trimChars raw) with
  | none => rw [hp] at h; cases h
  | some v =>
    rw [hp] at h
    have hinv := parseUrl_inv hp
    obtain ⟨vs, vh, vp, vq, vf⟩ := v
    obtain rfl := Option.some.inj h
    have hinv' : UrlInv ⟨vs, vh, vp, vq, none⟩ := hinv
    show normalize_url (serializeUrl ⟨vs, vh, vp, vq, none⟩) =
      some (serializeUrl ⟨vs, vh, vp, vq, none⟩)
    have hws := serializeUrl_no_ws ⟨vs, vh, vp, vq, none⟩ hinv' rfl
    have htrim : trimChars (serializeUrl ⟨vs, vh, vp, vq, none⟩) =
        serializeUrl ⟨vs, vh, vp, vq, none⟩ := trimChars_eq_self_of_all hws
    have hne : (serializeUrl (⟨vs, vh, vp, vq, none⟩ : ModelUrl)).isEmpty = false :=
      isEmpty_false_of_ne_nil (serializeUrl_ne_nil _)
    simp only [normalize_url]
    rw [htrim, hne]
    simp only [Bool.false_eq_true, if_false]
    rw [parse_serialize ⟨vs, vh, vp, vq, none⟩ hinv' rfl]
    rfl

/-- C10 witness: the idempotence theorem applied to a concrete raw URL
(mixed case, fragment, space in path), discharging the hypothesis by
evaluation. -/
theorem normalize_url_idempotent_witness :
    normalize_url "https://e.com/a%20b?q=1".toList = some "https://e.com/a%20b?q=1".toList :=
  normalize_url_idempotent "  HTTPS://E.com/a b?q=1#frag ".toList
    "https://e.com/a%20b?q=1".toList (by decide)
